import Mathlib

/-!
# Verve domain-model runtime: shallow embedding

A shallow embedding of the Verve field/model core (TypeScript) in Lean 4.
JavaScript values are embedded as the inductive `JsValue` (numbers are
restricted to integers; `undefined` is an explicit value, since the code
branches on it).  Model state and input data are association lists mirroring
plain JS objects; the proxy/instance-property mirror and timestamps are not
modelled since no verified property reads them.
-/

namespace Verve

/-- Embedded JavaScript values.  `vUndefined` is JS `undefined`; `vNull` is JS
`null`; numbers are restricted to integers (no claim depends on float
behaviour); `vArr`/`vObj` are arrays and plain objects. -/
inductive JsValue where
  | vUndefined : JsValue
  | vNull : JsValue
  | vBool : Bool → JsValue
  | vInt : Int → JsValue
  | vStr : String → JsValue
  | vArr : List JsValue → JsValue
  | vObj : List (String × JsValue) → JsValue
  deriving Repr

mutual

/-- Structural (deep) equality test on embedded JS values. -/
def JsValue.beq : JsValue → JsValue → Bool
  | .vUndefined, .vUndefined => true
  | .vNull, .vNull => true
  | .vBool a, .vBool b => a == b
  | .vInt a, .vInt b => a == b
  | .vStr a, .vStr b => a == b
  | .vArr xs, .vArr ys => JsValue.beqList xs ys
  | .vObj xs, .vObj ys => JsValue.beqObj xs ys
  | _, _ => false

/-- Elementwise equality of embedded JS arrays. -/
def JsValue.beqList : List JsValue → List JsValue → Bool
  | [], [] => true
  | x :: xs, y :: ys => JsValue.beq x y && JsValue.beqList xs ys
  | _, _ => false

/-- Entrywise equality of embedded JS objects. -/
def JsValue.beqObj : List (String × JsValue) → List (String × JsValue) → Bool
  | [], [] => true
  | (k₁, v₁) :: xs, (k₂, v₂) :: ys =>
      k₁ == k₂ && JsValue.beq v₁ v₂ && JsValue.beqObj xs ys
  | _, _ => false

end

instance : BEq JsValue := ⟨JsValue.beq⟩

/-- Induction over `JsValue` that exposes membership hypotheses for the
nested lists. -/
def JsValue.indOn {motive : JsValue → Sort _} (v : JsValue)
    (hUndef : motive .vUndefined) (hNull : motive .vNull)
    (hBool : ∀ b, motive (.vBool b)) (hInt : ∀ n, motive (.vInt n))
    (hStr : ∀ s, motive (.vStr s))
    (hArr : ∀ xs, (∀ x ∈ xs, motive x) → motive (.vArr xs))
    (hObj : ∀ fs, (∀ p ∈ fs, motive p.2) → motive (.vObj fs)) : motive v :=
  match v with
  | .vUndefined => hUndef
  | .vNull => hNull
  | .vBool b => hBool b
  | .vInt n => hInt n
  | .vStr s => hStr s
  | .vArr xs =>
      hArr xs (fun x hx =>
        have : sizeOf x < 1 + sizeOf xs :=
          Nat.lt_of_lt_of_le (List.sizeOf_lt_of_mem hx) (Nat.le_add_left _ _)
        JsValue.indOn x hUndef hNull hBool hInt hStr hArr hObj)
  | .vObj fs =>
      hObj fs (fun p hp =>
        have h1 : sizeOf p.2 < sizeOf p := by
          obtain ⟨a, b⟩ := p
          simp only [Prod.mk.sizeOf_spec]
          omega
        have : sizeOf p.2 < 1 + sizeOf fs :=
          Nat.lt_of_lt_of_le (Nat.lt_of_lt_of_le h1 (Nat.le_of_lt (List.sizeOf_lt_of_mem hp)))
            (Nat.le_add_left _ _)
        JsValue.indOn p.2 hUndef hNull hBool hInt hStr hArr hObj)
termination_by sizeOf v

theorem JsValue.beqList_iff_eq : ∀ (xs ys : List JsValue),
    (∀ x ∈ xs, ∀ c, JsValue.beq x c = true ↔ x = c) →
    (JsValue.beqList xs ys = true ↔ xs = ys) := by
  intro xs
  induction xs with
  | nil => intro ys _; cases ys <;> simp [JsValue.beqList]
  | cons x xs ihl =>
    intro ys ih
    cases ys with
    | nil => simp [JsValue.beqList]
    | cons y ys =>
      simp [JsValue.beqList, Bool.and_eq_true, ih x (by simp) y,
        ihl ys (fun z hz => ih z (by simp [hz]))]

theorem JsValue.beqObj_iff_eq : ∀ (xs ys : List (String × JsValue)),
    (∀ p ∈ xs, ∀ c, JsValue.beq p.2 c = true ↔ p.2 = c) →
    (JsValue.beqObj xs ys = true ↔ xs = ys) := by
  intro xs
  induction xs with
  | nil => intro ys _; cases ys <;> simp [JsValue.beqObj]
  | cons p ps ihl =>
    intro ys ih
    cases ys with
    | nil => obtain ⟨k, v⟩ := p; simp [JsValue.beqObj]
    | cons q qs =>
      obtain ⟨k₁, v₁⟩ := p
      obtain ⟨k₂, v₂⟩ := q
      have hv := ih (k₁, v₁) (by simp) v₂
      have hrest := ihl qs (fun z hz => ih z (by simp [hz]))
      simp only [JsValue.beqObj, Bool.and_eq_true, beq_iff_eq, hv, hrest,
        List.cons.injEq, Prod.mk.injEq]
      try tauto

theorem JsValue.beq_iff_eq : ∀ (a b : JsValue), JsValue.beq a b = true ↔ a = b := by
  intro a
  induction a using JsValue.indOn with
  | hUndef => intro b; cases b <;> simp [JsValue.beq]
  | hNull => intro b; cases b <;> simp [JsValue.beq]
  | hBool x => intro b; cases b <;> simp [JsValue.beq]
  | hInt x => intro b; cases b <;> simp [JsValue.beq]
  | hStr x => intro b; cases b <;> simp [JsValue.beq]
  | hArr xs ih =>
    intro b
    cases b <;> simp [JsValue.beq]
    case vArr ys => exact JsValue.beqList_iff_eq xs ys ih
  | hObj fs ih =>
    intro b
    cases b <;> simp [JsValue.beq]
    case vObj gs => exact JsValue.beqObj_iff_eq fs gs ih

instance : DecidableEq JsValue := fun a b =>
  decidable_of_iff (JsValue.beq a b = true) (JsValue.beq_iff_eq a b)

/-- A JS plain object: ordered own enumerable properties. -/
abbrev JsObj := List (String × JsValue)

/-- `obj[key]`: JS property read, `undefined` when the key is absent. -/
def jsGet (o : JsObj) (k : String) : JsValue :=
  match o.find? (fun p => p.1 = k) with
  | some p => p.2
  | none => .vUndefined

/-- `obj[key] = v`: JS property write — replaces in place when the key
exists (preserving key order), appends otherwise. -/
def jsSet (o : JsObj) (k : String) (v : JsValue) : JsObj :=
  if o.any (fun p => p.1 = k) then
    o.map (fun p => if p.1 = k then (k, v) else p)
  else
    o ++ [(k, v)]

/-- `delete obj[key]`. -/
def jsDelete (o : JsObj) (k : String) : JsObj :=
  o.filter (fun p => p.1 ≠ k)

/-- JS truthiness: `undefined`, `null`, `false`, `0` and `""` are falsy;
everything else (including every array and object) is truthy. -/
def truthy : JsValue → Bool
  | .vUndefined => false
  | .vNull => false
  | .vBool b => b
  | .vInt n => n ≠ 0
  | .vStr s => s ≠ ""
  | .vArr _ => true
  | .vObj _ => true

/-- JS `typeof`. -/
def jsTypeof : JsValue → String
  | .vUndefined => "undefined"
  | .vNull => "object"
  | .vBool _ => "boolean"
  | .vInt _ => "number"
  | .vStr _ => "string"
  | .vArr _ => "object"
  | .vObj _ => "object"

/-- `Array.isArray`. -/
def isJsArray : JsValue → Bool
  | .vArr _ => true
  | _ => false

/-! ## Change log (Model private state `#changeLog`) -/

/-- One change-log entry `{field, previousValue, currentValue, timestamp}`
(the timestamp is never read by any modelled operation and is omitted). -/
structure ChangeEntry where
  field : String
  currentValue : JsValue
  previousValue : JsValue
  deriving DecidableEq, Repr

/-- `Model[MODEL_CHANGE_LOG](change)`: the change-log sink.  A change whose
`currentValue` is `undefined` erases every entry for that field; any other
change is appended. -/
def changeLogSink (log : List ChangeEntry) (c : ChangeEntry) : List ChangeEntry :=
  if c.currentValue = .vUndefined then
    log.filter (fun e => e.field ≠ c.field)
  else
    log ++ [c]

/-- `Model.getChangeLog()`: the log, reverse-chronological (newest first). -/
def getChangeLog (log : List ChangeEntry) : List ChangeEntry :=
  log.reverse

/-- JS strict equality `===` as evaluated between a value of `initialState`
and a logged value.  `initialState` holds deep clones (`deepClone` /
`{...state}` then `deepClone`), so an array or object stored there is never
reference-equal to any logged value; primitives compare structurally. -/
def strictEqClone : JsValue → JsValue → Bool
  | .vArr _, _ => false
  | .vObj _, _ => false
  | _, .vArr _ => false
  | _, .vObj _ => false
  | a, b => a == b

/-- The loop body of `Model.getChanges()`: walk entries (already newest
first), skip fields already seen, drop a field whose most recent value is
strictly equal (`===`) to its `initialState` value, keep the rest. -/
def getChangesGo (initialState : JsObj) :
    List ChangeEntry → List String → List (String × JsValue)
  | [], _ => []
  | e :: rest, seen =>
    if e.field ∈ seen then
      getChangesGo initialState rest seen
    else if strictEqClone (jsGet initialState e.field) e.currentValue then
      getChangesGo initialState rest (e.field :: seen)
    else
      (e.field, e.currentValue) :: getChangesGo initialState rest (e.field :: seen)

/-- `Model.getChanges()`: fold over `getChangeLog()` (newest first). -/
def getChanges (initialState : JsObj) (log : List ChangeEntry) : JsObj :=
  getChangesGo initialState (getChangeLog log) []

/-! ## Field options and errors -/

/-- A field generator.  In the source a generator is a nullary producer
`() => T` tagged eager or lazy (`__lazy`); the embedding records the value
it produces. -/
structure FieldGen where
  lazy : Bool
  value : JsValue

/-- A field validator `(value, model?) => boolean | string | void`, tagged
eager or lazy.  The embedded function consumes the value only (no verified
statement uses the optional model argument); its `JsValue` result models the
JS return value (`true`, a message string, `undefined`, ...). -/
structure FieldValidatorM where
  lazy : Bool
  fn : JsValue → JsValue

/-- `FieldOptions`.  `readable`/`writable` may also be predicates in the
source; the verified statements only exercise the boolean form, and the
`?? true` defaults of `isReadable`/`isWritable` are captured by the
defaults here.  `associate` records whether an `associate` rule is declared
(the rule's compiled validator is passed separately where needed). -/
structure FieldOpts where
  nullable : Bool := false
  readable : Bool := true
  writable : Bool := true
  default : JsValue := .vUndefined
  generator : Option FieldGen := none
  compute : Bool := false
  validators : List FieldValidatorM := []
  associate : Bool := false

/-- The `ErrorCode`s reached by the modelled operations. -/
inductive ErrCode where
  | fieldNotReadable
  | fieldNotInitialized
  | fieldValidatorsFailed
  | fieldNotWritable
  | fieldNotNullable
  | fieldNoGenerator
  | fieldAlreadyGenerated
  | fieldCannotGenerateExisting
  | fieldNoCompute
  | fieldValidatorFailed
  | idFieldCannotBeExcluded
  | modelFieldValidationFailed
  | associationValidatorNotFound
  | associationInvalid
  deriving DecidableEq, Repr

/-- `Field.getEagerGenerator(options)`: the configured generator when it is
not tagged lazy. -/
def Field.getEagerGenerator (o : FieldOpts) : Option FieldGen :=
  match o.generator with
  | some g => if g.lazy then none else some g
  | none => none

/-- `Field.getEagerValidators(options)`: the validators not tagged lazy. -/
def Field.getEagerValidators (o : FieldOpts) : List FieldValidatorM :=
  o.validators.filter (fun v => !v.lazy)

/-! ## Per-instance model state -/

/-- The private state of one model instance that the modelled operations
read and write: `#state`, `#initialState`, `#changeLog` and the
`#initializer` mode (`isFrom = true` for `from`-hydrated instances). -/
structure MState where
  state : JsObj
  initialState : JsObj
  changeLog : List ChangeEntry
  isFrom : Bool
  deriving DecidableEq, Repr

/-! ## Field operations (`Field.ts`) -/

/-- `Field.validate(model, key)`: skip when the raw value is `undefined`,
otherwise one `FIELD_VALIDATOR_FAILED` error per validator whose result is
not exactly `true`. -/
def fieldValidate (o : FieldOpts) (m : MState) (key : String) : List ErrCode :=
  let value := jsGet m.state key
  if value = .vUndefined then []
  else
    o.validators.filterMap (fun v =>
      if v.fn value ≠ .vBool true then some .fieldValidatorFailed else none)

/-- `Field.get(model, key)`: `NotReadable`, then `NotInitialized` on
`undefined`, then `ValidatorsFailed` when `validate` reports errors, else
the stored value. -/
def fieldGet (o : FieldOpts) (m : MState) (key : String) : Except ErrCode JsValue :=
  if o.readable = false then .error .fieldNotReadable
  else
    let value := jsGet m.state key
    if value = .vUndefined then .error .fieldNotInitialized
    else if fieldValidate o m key ≠ [] then .error .fieldValidatorsFailed
    else .ok value

/-- `Field.unsafeGet(model, key)`: raw state read (`undefined` when absent). -/
def fieldUnsafeGet (m : MState) (key : String) : JsValue :=
  jsGet m.state key

/-- `Field.set(model, key, value)`: `NotWritable`, then `NotNullable` when
the value is `null` and the field is not nullable; otherwise push a
change-log entry (previous vs. new) through the sink and commit to state. -/
def fieldSet (o : FieldOpts) (m : MState) (key : String) (value : JsValue) :
    Except ErrCode MState :=
  if o.writable = false then .error .fieldNotWritable
  else if value = .vNull ∧ o.nullable = false then .error .fieldNotNullable
  else .ok { m with
    changeLog := changeLogSink m.changeLog ⟨key, value, jsGet m.state key⟩
    state := jsSet m.state key value }

/-- `Field.unset(model, key)`: push a change with `currentValue = undefined`
(which the sink interprets as erasure of the field's entries), then delete
the state entry. -/
def fieldUnset (m : MState) (key : String) : MState :=
  { m with
    changeLog := changeLogSink m.changeLog ⟨key, .vUndefined, jsGet m.state key⟩
    state := jsDelete m.state key }

/-- `Field.isValid(model, key)`: `validators.every((v) => v(value))` — note
the result is used for its JS truthiness, not compared against `true`. -/
def fieldIsValid (o : FieldOpts) (m : MState) (key : String) : Bool :=
  let value := jsGet m.state key
  o.validators.all (fun v => truthy (v.fn value))

/-- `Field.generate(model, key)`: `NoGenerator` when none configured;
`AlreadyGenerated` when the current raw value is truthy (`if (value)`);
`CannotGenerateExisting` on a hydrated model; else commit the generated
value via `set`. -/
def fieldGenerate (o : FieldOpts) (m : MState) (key : String) :
    Except ErrCode MState :=
  match o.generator with
  | none => .error .fieldNoGenerator
  | some gen =>
    if truthy (jsGet m.state key) then .error .fieldAlreadyGenerated
    else if m.isFrom then .error .fieldCannotGenerateExisting
    else fieldSet o m key gen.value

/-! ## Value seeding (`ValueInitializer.ts`) -/

/-- `ValueInitializer.getInitialValue(value, options)`: an explicit data
value wins; hydration leaves the field alone; otherwise `if
(options.default)` — a JS truthiness test — then the eager generator. -/
def getInitialValue (value : JsValue) (o : FieldOpts) (isHydrating : Bool) : JsValue :=
  if value ≠ .vUndefined then value
  else if isHydrating then .vUndefined
  else if truthy o.default then o.default
  else
    match Field.getEagerGenerator o with
    | some g => g.value
    | none => .vUndefined

/-- `ValueInitializer.initialize(model, data, params)`: for each
non-computed schema field resolve the initial value and, when it is not
`undefined`, write it into model state (the temporary enumerable instance
property mirror is not modelled). -/
def valueInitialize (fields : List (String × FieldOpts)) (data : JsObj)
    (isHydrating : Bool) : JsObj :=
  fields.foldl
    (fun st p =>
      if p.2.compute then st
      else
        let v := getInitialValue (jsGet data p.1) p.2 isHydrating
        if v = .vUndefined then st else jsSet st p.1 v)
    []

/-! ## Construction-time validation (`ValidationInitializer.ts`) -/

/-- `Object.keys`.  On an array or string the own keys are the index
strings.  JS throws a `TypeError` on `null`/`undefined` (and returns `[]`
on other primitives); the throwing case is unreachable from every verified
statement and is embedded as `[]`. -/
def jsOwnKeys : JsValue → List String
  | .vObj fs => fs.map (fun p => p.1)
  | .vArr xs => (List.range xs.length).map toString
  | .vStr s => (List.range s.length).map toString
  | _ => []

/-- Optional / guarded JS property access `value?.[key]`: `undefined` when
the receiver is `null` or `undefined` (optional chaining short-circuits
without throwing), object lookup, array index, `undefined` otherwise.
`isObjectEqual` also reads properties through this total variant: its
own-keys length guard means no key is ever read off a `null`/`undefined`
receiver there, and the verified statements about it restrict both
operands to `vObj`/`vArr`. -/
def jsPropSafe : JsValue → String → JsValue
  | .vObj fs, k => jsGet fs k
  | .vArr xs, k =>
    match k.toNat? with
    | some i => xs.getD i .vUndefined
    | none => .vUndefined
  | _, _ => .vUndefined

/-- Plain JS property access `value[key]` (e.g. `value.id`): throws a
`TypeError` — modelled as `.error ()` — when the receiver is `null` or
`undefined`; otherwise as `jsPropSafe`. -/
def jsProp : JsValue → String → Except Unit JsValue
  | .vUndefined, _ => .error ()
  | .vNull, _ => .error ()
  | v, k => .ok (jsPropSafe v k)

/-- The `isLoaded` predicate of `validateAssociation`:
`value.id !== undefined && Object.keys(value).length > 1`.  The plain
property access `value.id` throws a `TypeError` on a `null`/`undefined`
value (propagated as `.error ()`); when it succeeds the receiver is not
`null`/`undefined`, so the subsequent `Object.keys` call cannot throw. -/
def isLoaded (v : JsValue) : Except Unit Bool :=
  match jsProp v "id" with
  | .error e => .error e
  | .ok idv => .ok (decide (idv ≠ .vUndefined) && decide ((jsOwnKeys v).length > 1))

/-- The body of `validateAssociation`'s per-value loop: skip a value that
is not loaded, collect `ASSOCIATION_INVALID` when the validator rejects,
and propagate the `TypeError` thrown by `isLoaded` on a `null`/`undefined`
value. -/
def validateAssociationStep (validator : JsValue → Bool) (errs : List ErrCode)
    (v : JsValue) : Except Unit (List ErrCode) :=
  match isLoaded v with
  | .error e => .error e
  | .ok false => .ok errs
  | .ok true =>
    if validator v = false then .ok (errs ++ [.associationInvalid])
    else .ok errs

/-- `validateAssociation(model, modelName, fieldName, fieldValue)`.  The
registry lookup result — the compiled validator partially applied to the
source model — is passed in as `vopt`; a missing validator yields
`ASSOCIATION_VALIDATOR_NOT_FOUND` before any value is inspected.  An array
value is checked element-wise; values that are not loaded are skipped; a
value whose `isLoaded` check throws (a `null`/`undefined` element or field
value) aborts the loop, discarding the errors gathered so far. -/
def validateAssociation (vopt : Option (JsValue → Bool)) (fieldValue : JsValue) :
    Except Unit (List ErrCode) :=
  match vopt with
  | none => .ok [.associationValidatorNotFound]
  | some validator =>
    let values := match fieldValue with | .vArr xs => xs | v => [v]
    values.foldlM (validateAssociationStep validator) []

/-- `validateField(model, fieldName, fieldInstance)` of the
`ValidationInitializer`: skip `undefined`; `FIELD_NOT_NULLABLE` on a `null`
value of a non-nullable field; association errors when an `associate` rule
is declared — a `TypeError` escaping the association check propagates and
discards the errors gathered so far; one `FIELD_VALIDATOR_FAILED` per
failing *eager* validator. -/
def validateFieldInit (o : FieldOpts) (vopt : Option (JsValue → Bool))
    (value : JsValue) : Except Unit (List ErrCode) :=
  if value = .vUndefined then .ok []
  else
    match (if o.associate then validateAssociation vopt value else .ok []) with
    | .error e => .error e
    | .ok assocErrs =>
      .ok ((if value = .vNull ∧ o.nullable = false then [.fieldNotNullable] else [])
        ++ assocErrs
        ++ (Field.getEagerValidators o).filterMap (fun v =>
            if v.fn value ≠ .vBool true then some .fieldValidatorFailed else none))

/-- `ValidationInitializer.initialize(model, schema)` error accumulation:
merge `validateField` over every schema field with a defined value; a
`TypeError` from any field aborts the pass.  (The property re-definition
with real readable/writable flags is not modelled; no verified statement
reads the property mirror.)  The caller aborts with
`MODEL_FIELD_VALIDATION_FAILED` when the accumulated list is non-empty. -/
def validationInitialize (fields : List (String × FieldOpts))
    (assoc : String → Option (JsValue → Bool)) (state : JsObj) :
    Except Unit (List ErrCode) :=
  fields.foldlM
    (fun errs p =>
      let value := jsGet state p.1
      if value = .vUndefined then .ok errs
      else
        match validateFieldInit p.2 (assoc p.1) value with
        | .error e => .error e
        | .ok es => .ok (errs ++ es))
    []

/-! ## Model construction (`ModelInitializer.ts`) -/

/-- How a `make`/`from` call fails: an uncaught JS `TypeError` escaping the
association check, or the aggregated `MODEL_FIELD_VALIDATION_FAILED`
carrying one entry per field error. -/
inductive InitFailure where
  | typeError : InitFailure
  | validationFailed : List ErrCode → InitFailure
  deriving DecidableEq, Repr

/-- `Model.make(data)`: seed values with `isHydrating = false`, validate
(a `TypeError` escaping validation crashes the call; a non-empty error
list aborts with the aggregate), then record one change-log entry per
state key with `previousValue = undefined`.  `initialState` stays empty
and the initializer mode is `make`. -/
def makeModel (schema : List (String × FieldOpts))
    (assoc : String → Option (JsValue → Bool)) (data : JsObj) :
    Except InitFailure MState :=
  let state := valueInitialize schema data false
  match validationInitialize schema assoc state with
  | .error _ => .error .typeError
  | .ok errs =>
    if errs ≠ [] then .error (.validationFailed errs)
    else
      .ok { state := state
            initialState := []
            changeLog := state.foldl (fun lg p => changeLogSink lg ⟨p.1, p.2, .vUndefined⟩) []
            isFrom := false }

/-- `Model.from(data)`: seed values with `isHydrating = true`, validate
(a `TypeError` escaping validation crashes the call; a non-empty error
list aborts with the aggregate), then snapshot the state as `initialState`
(deep copy — captured by `strictEqClone` at comparison time).  No
change-log entries are seeded. -/
def fromModel (schema : List (String × FieldOpts))
    (assoc : String → Option (JsValue → Bool)) (data : JsObj) :
    Except InitFailure MState :=
  let state := valueInitialize schema data true
  match validationInitialize schema assoc state with
  | .error _ => .error .typeError
  | .ok errs =>
    if errs ≠ [] then .error (.validationFailed errs)
    else
      .ok { state := state
            initialState := state
            changeLog := []
            isFrom := true }

/-! ## Model operations (`Model.ts`) -/

/-- One entry of the model's `fields` map as `only`/`except` see it: the
field name, whether the bound field wraps an `IdField`, and its options. -/
structure ModelField where
  name : String
  isId : Bool
  opts : FieldOpts

/-- `Model.set(data)`: apply each entry whose value is not `undefined` via
the corresponding bound field's `set`.  (A data key with no schema field
crashes in JS — `fields[key]` is `undefined`; no verified statement
exercises that, and the embedding skips such keys.) -/
def modelSet (fields : List ModelField) (m : MState) (data : JsObj) :
    Except ErrCode MState :=
  data.foldlM
    (fun mm p =>
      if p.2 = .vUndefined then .ok mm
      else
        match fields.find? (fun f => f.name = p.1) with
        | some f => fieldSet f.opts mm p.1 p.2
        | none => .ok mm)
    m

/-- `Model.unset(keys)`: unset each named field via its bound field. -/
def modelUnset (fields : List ModelField) (m : MState) (keys : List String) :
    MState :=
  keys.foldl
    (fun mm k =>
      match fields.find? (fun f => f.name = k) with
      | some _ => fieldUnset mm k
      | none => mm)
    m

/-- `Model.only(keys)`: unset every field not named, skipping the `IdField`
unconditionally. -/
def modelOnly (fields : List ModelField) (m : MState) (keys : List String) :
    MState :=
  fields.foldl
    (fun mm f =>
      if keys.contains f.name then mm
      else if f.isId then mm
      else fieldUnset mm f.name)
    m

/-- `Model.except(keys)`: unset every named field, failing with
`ID_FIELD_CANNOT_BE_EXCLUDED` when the named field is the `IdField`. -/
def modelExcept (fields : List ModelField) (m : MState) (keys : List String) :
    Except ErrCode MState :=
  fields.foldlM
    (fun mm f =>
      if keys.contains f.name = false then .ok mm
      else if f.isId then .error .idFieldCannotBeExcluded
      else .ok (fieldUnset mm f.name))
    m

/-! ## Deep comparison (`field/core/utils.ts`): `isArrayEqual` / `isObjectEqual`

`Array.prototype.sort()` with the default comparator orders elements by
comparing `String(x)` with `String(y)` code-unit-wise; ES2019 requires the
sort to be stable but leaves the algorithm unspecified, so the embedding
realizes it as a stable insertion sort over that comparator. -/

def charListLt : List Char → List Char → Bool
  | [], [] => false
  | [], _ :: _ => true
  | _ :: _, [] => false
  | c :: cs, d :: ds =>
    if c.val < d.val then true
    else if d.val < c.val then false
    else charListLt cs ds

def jsStrLe (s t : String) : Bool := !(charListLt t.data s.data)

mutual
def jsToString : JsValue → String
  | .vUndefined => "undefined"
  | .vNull => "null"
  | .vBool b => if b then "true" else "false"
  | .vInt n => toString n
  | .vStr s => s
  | .vArr xs => jsToStringElems xs
  | .vObj _ => "[object Object]"

def jsToStringElems : List JsValue → String
  | [] => ""
  | [x] =>
    match x with
    | .vUndefined => ""
    | .vNull => ""
    | v => jsToString v
  | x :: rest =>
    (match x with
     | .vUndefined => ""
     | .vNull => ""
     | v => jsToString v) ++ "," ++ jsToStringElems rest
end

def jsSortLe (x y : JsValue) : Bool := jsStrLe (jsToString x) (jsToString y)

def jsSortInsert (x : JsValue) : List JsValue → List JsValue
  | [] => [x]
  | y :: ys => if jsSortLe x y then x :: y :: ys else y :: jsSortInsert x ys

def jsSortList : List JsValue → List JsValue
  | [] => []
  | x :: xs => jsSortInsert x (jsSortList xs)

theorem mem_jsSortInsert {v x : JsValue} {l : List JsValue}
    (h : v ∈ jsSortInsert x l) : v = x ∨ v ∈ l := by
  induction l with
  | nil => simpa [jsSortInsert] using h
  | cons y ys ih =>
    unfold jsSortInsert at h
    by_cases hle : jsSortLe x y = true
    · rw [if_pos hle] at h
      simpa using h
    · rw [if_neg hle] at h
      rcases List.mem_cons.mp h with h1 | h2
      · right; simp [h1]
      · rcases ih h2 with h3 | h3
        · left; exact h3
        · right; simp [h3]

theorem mem_jsSortList {v : JsValue} {l : List JsValue}
    (h : v ∈ jsSortList l) : v ∈ l := by
  induction l with
  | nil => simpa [jsSortList] using h
  | cons x xs ih =>
    unfold jsSortList at h
    rcases mem_jsSortInsert h with h1 | h2
    · simp [h1]
    · exact List.mem_cons_of_mem _ (ih h2)

theorem jsValue_one_le_sizeOf (v : JsValue) : 1 ≤ sizeOf v := by
  cases v <;> simp <;> omega

theorem list_one_le_sizeOf (l : List JsValue) : 1 ≤ sizeOf l := by
  cases l <;> simp <;> omega

theorem sizeOf_jsGet_lt (fs : JsObj) (k : String) :
    sizeOf (jsGet fs k) < 1 + sizeOf fs := by
  have h1 : (1 : Nat) ≤ sizeOf fs := by
    cases fs
    · simp
    · simp
      omega
  unfold jsGet
  cases hf : fs.find? (fun p => p.1 = k) with
  | none =>
    show sizeOf JsValue.vUndefined < 1 + sizeOf fs
    have h2 : sizeOf JsValue.vUndefined = 1 := by simp
    omega
  | some p =>
    show sizeOf p.2 < 1 + sizeOf fs
    have hp : p ∈ fs := List.mem_of_find?_eq_some hf
    have h2 : sizeOf p < sizeOf fs := List.sizeOf_lt_of_mem hp
    have h3 : sizeOf p.2 < sizeOf p := by
      obtain ⟨x, y⟩ := p
      simp only [Prod.mk.sizeOf_spec]
      omega
    omega

theorem string_one_le_sizeOf (s : String) : 1 ≤ sizeOf s := by
  cases s
  simp

theorem sizeOf_getD_lt (xs : List JsValue) (i : Nat) :
    sizeOf (xs.getD i .vUndefined) < 1 + sizeOf xs := by
  induction xs generalizing i with
  | nil =>
    have h1 : ([] : List JsValue).getD i .vUndefined = .vUndefined := by cases i <;> rfl
    rw [h1]
    have h2 : sizeOf JsValue.vUndefined = 1 := by simp
    have h3 : sizeOf ([] : List JsValue) = 1 := by simp
    omega
  | cons x rest ih =>
    have hs : sizeOf (x :: rest) = 1 + sizeOf x + sizeOf rest := by simp
    cases i with
    | zero =>
      rw [List.getD_cons_zero]
      omega
    | succ n =>
      rw [List.getD_cons_succ]
      have := ih n
      omega

theorem list_jsValue_one_le_sizeOf (l : List JsValue) : 1 ≤ sizeOf l := by
  cases l
  · simp
  · simp
    omega

theorem sizeOf_jsPropSafe_lt : ∀ {a : JsValue} {k : String}, k ∈ jsOwnKeys a →
    sizeOf (jsPropSafe a k) < sizeOf a := by
  intro a k h
  cases a with
  | vObj fs =>
    have h1 := sizeOf_jsGet_lt fs k
    have h2 : sizeOf (JsValue.vObj fs) = 1 + sizeOf fs := by simp
    simp only [jsPropSafe]
    omega
  | vArr xs =>
    have h2 : sizeOf (JsValue.vArr xs) = 1 + sizeOf xs := by simp
    simp only [jsPropSafe]
    cases hi : k.toNat? with
    | none =>
      show sizeOf JsValue.vUndefined < sizeOf (JsValue.vArr xs)
      have h1 := list_jsValue_one_le_sizeOf xs
      have h3 : sizeOf JsValue.vUndefined = 1 := by simp
      omega
    | some i =>
      show sizeOf (xs.getD i .vUndefined) < sizeOf (JsValue.vArr xs)
      have h1 := sizeOf_getD_lt xs i
      omega
  | vStr s =>
    have h1 := string_one_le_sizeOf s
    have h2 : sizeOf (JsValue.vStr s) = 1 + sizeOf s := by simp
    have h3 : sizeOf JsValue.vUndefined = 1 := by simp
    simp only [jsPropSafe]
    omega
  | vUndefined => exact absurd h (by simp [jsOwnKeys])
  | vNull => exact absurd h (by simp [jsOwnKeys])
  | vBool b => exact absurd h (by simp [jsOwnKeys])
  | vInt n => exact absurd h (by simp [jsOwnKeys])

theorem sizeOf_jsPropSafe_le (a : JsValue) (k : String) :
    sizeOf (jsPropSafe a k) ≤ sizeOf a := by
  have hu : sizeOf JsValue.vUndefined = 1 := by simp
  cases a with
  | vObj fs =>
    have h1 := sizeOf_jsGet_lt fs k
    have h2 : sizeOf (JsValue.vObj fs) = 1 + sizeOf fs := by simp
    simp only [jsPropSafe]
    omega
  | vArr xs =>
    have h2 : sizeOf (JsValue.vArr xs) = 1 + sizeOf xs := by simp
    have hu2 : sizeOf JsValue.vUndefined = 1 := by simp
    simp only [jsPropSafe]
    cases hi : k.toNat? with
    | none =>
      show sizeOf JsValue.vUndefined ≤ sizeOf (JsValue.vArr xs)
      have h1 := list_jsValue_one_le_sizeOf xs
      omega
    | some i =>
      show sizeOf (xs.getD i .vUndefined) ≤ sizeOf (JsValue.vArr xs)
      have h1 := sizeOf_getD_lt xs i
      omega
  | vStr s =>
    have h2 : sizeOf (JsValue.vStr s) = 1 + sizeOf s := by simp
    have h1 := string_one_le_sizeOf s
    simp only [jsPropSafe]
    omega
  | vUndefined => simp [jsPropSafe]
  | vNull =>
    have h2 : sizeOf JsValue.vNull = 1 := by simp
    simp only [jsPropSafe]
    omega
  | vBool b =>
    have h2 : sizeOf (JsValue.vBool b) = 1 + sizeOf b := by simp
    simp only [jsPropSafe]
    omega
  | vInt n =>
    have h2 : sizeOf (JsValue.vInt n) = 1 + sizeOf n := by simp
    simp only [jsPropSafe]
    omega

mutual

def isArrayEqual (a b : List JsValue) : Bool :=
  if a.length ≠ b.length then false
  else
    ((jsSortList a).zip (jsSortList b)).attach.all (fun pr =>
      if jsTypeof pr.1.1 ≠ jsTypeof pr.1.2 then false
      else if jsTypeof pr.1.1 == "object" && jsTypeof pr.1.2 == "object" then
        isObjectEqualV pr.1.1 pr.1.2
      else if isJsArray pr.1.1 && isJsArray pr.1.2 then isArrayEqualV pr.1.1 pr.1.2
      else pr.1.1 == pr.1.2)
termination_by sizeOf a + sizeOf b
decreasing_by
  all_goals
    obtain ⟨⟨x, y⟩, hmem⟩ := pr
    have h1 := List.of_mem_zip hmem
    have h2 := List.sizeOf_lt_of_mem (mem_jsSortList h1.1)
    have h3 := List.sizeOf_lt_of_mem (mem_jsSortList h1.2)
    simp only
    omega

def isObjectEqualV (a b : JsValue) : Bool :=
  if jsTypeof a != "object" || jsTypeof b != "object" then a == b
  else
    if (jsOwnKeys a).length ≠ (jsOwnKeys b).length then false
    else
      !((jsOwnKeys a).attach.any (fun kr =>
        if jsTypeof (jsPropSafe a kr.1) ≠ jsTypeof (jsPropSafe b kr.1) then true
        else if isJsArray (jsPropSafe a kr.1) && isJsArray (jsPropSafe b kr.1) then
          !(isArrayEqualV (jsPropSafe a kr.1) (jsPropSafe b kr.1))
        else if jsTypeof (jsPropSafe a kr.1) == "object" && jsTypeof (jsPropSafe b kr.1) == "object" then
          !(isObjectEqualV (jsPropSafe a kr.1) (jsPropSafe b kr.1))
        else jsPropSafe a kr.1 != jsPropSafe b kr.1))
termination_by sizeOf a + sizeOf b
decreasing_by
  all_goals
    obtain ⟨key, hk⟩ := kr
    have h1 := sizeOf_jsPropSafe_lt hk
    have h2 := sizeOf_jsPropSafe_le b key
    simp only
    omega

def isArrayEqualV : JsValue → JsValue → Bool
  | .vArr xs, .vArr ys => isArrayEqual xs ys
  | _, _ => false
termination_by v w => sizeOf v + sizeOf w
decreasing_by
  all_goals
    have h1 : sizeOf (JsValue.vArr xs) = 1 + sizeOf xs := by simp
    have h2 : sizeOf (JsValue.vArr ys) = 1 + sizeOf ys := by simp
    omega

end

theorem attach_all_eq {α : Type _} (l : List α) (g : α → Bool) :
    l.attach.all (fun x => g x.1) = l.all g := by
  rw [Bool.eq_iff_iff, List.all_eq_true, List.all_eq_true]
  constructor
  · intro h x hx
    exact h ⟨x, hx⟩ (List.mem_attach l ⟨x, hx⟩)
  · intro h x _
    exact h x.1 x.2

theorem attach_any_eq {α : Type _} (l : List α) (g : α → Bool) :
    l.attach.any (fun x => g x.1) = l.any g := by
  rw [Bool.eq_iff_iff, List.any_eq_true, List.any_eq_true]
  constructor
  · intro h
    obtain ⟨x, _, hg⟩ := h
    exact ⟨x.1, x.2, hg⟩
  · intro h
    obtain ⟨x, hx, hg⟩ := h
    exact ⟨⟨x, hx⟩, List.mem_attach l ⟨x, hx⟩, hg⟩

theorem isArrayEqual_eq (a b : List JsValue) :
    isArrayEqual a b =
      if a.length ≠ b.length then false
      else
        ((jsSortList a).zip (jsSortList b)).all (fun pr =>
          if jsTypeof pr.1 ≠ jsTypeof pr.2 then false
          else if jsTypeof pr.1 == "object" && jsTypeof pr.2 == "object" then
            isObjectEqualV pr.1 pr.2
          else if isJsArray pr.1 && isJsArray pr.2 then isArrayEqualV pr.1 pr.2
          else pr.1 == pr.2) := by
  rw [isArrayEqual]
  by_cases h : a.length ≠ b.length
  · rw [if_pos h, if_pos h]
  · rw [if_neg h, if_neg h]
    exact attach_all_eq ((jsSortList a).zip (jsSortList b))
      (fun pr =>
        if jsTypeof pr.1 ≠ jsTypeof pr.2 then false
        else if jsTypeof pr.1 == "object" && jsTypeof pr.2 == "object" then
          isObjectEqualV pr.1 pr.2
        else if isJsArray pr.1 && isJsArray pr.2 then isArrayEqualV pr.1 pr.2
        else pr.1 == pr.2)

theorem isObjectEqualV_eq (a b : JsValue) :
    isObjectEqualV a b =
      if jsTypeof a != "object" || jsTypeof b != "object" then a == b
      else
        if (jsOwnKeys a).length ≠ (jsOwnKeys b).length then false
        else
          !((jsOwnKeys a).any (fun key =>
            if jsTypeof (jsPropSafe a key) ≠ jsTypeof (jsPropSafe b key) then true
            else if isJsArray (jsPropSafe a key) && isJsArray (jsPropSafe b key) then
              !(isArrayEqualV (jsPropSafe a key) (jsPropSafe b key))
            else if jsTypeof (jsPropSafe a key) == "object" && jsTypeof (jsPropSafe b key) == "object" then
              !(isObjectEqualV (jsPropSafe a key) (jsPropSafe b key))
            else jsPropSafe a key != jsPropSafe b key)) := by
  rw [isObjectEqualV]
  by_cases h : (jsTypeof a != "object" || jsTypeof b != "object") = true
  · rw [if_pos h, if_pos h]
  · rw [if_neg h, if_neg h]
    by_cases h2 : (jsOwnKeys a).length ≠ (jsOwnKeys b).length
    · rw [if_pos h2, if_pos h2]
    · rw [if_neg h2, if_neg h2]
      have h3 := attach_any_eq (jsOwnKeys a)
        (fun key =>
          if jsTypeof (jsPropSafe a key) ≠ jsTypeof (jsPropSafe b key) then true
          else if isJsArray (jsPropSafe a key) && isJsArray (jsPropSafe b key) then
            !(isArrayEqualV (jsPropSafe a key) (jsPropSafe b key))
          else if jsTypeof (jsPropSafe a key) == "object" && jsTypeof (jsPropSafe b key) == "object" then
            !(isObjectEqualV (jsPropSafe a key) (jsPropSafe b key))
          else jsPropSafe a key != jsPropSafe b key)
      rw [h3]

/-- `Field.is(model, key, value)`: `typeof` mismatch → `false`; two arrays →
`isArrayEqual`; two `typeof 'object'` values → `isObjectEqual`; `===`
otherwise. -/
def fieldIs (m : MState) (key : String) (value : JsValue) : Bool :=
  if jsTypeof (fieldUnsafeGet m key) ≠ jsTypeof value then false
  else if isJsArray (fieldUnsafeGet m key) && isJsArray value then
    isArrayEqualV (fieldUnsafeGet m key) value
  else if jsTypeof (fieldUnsafeGet m key) == "object" && jsTypeof value == "object" then
    isObjectEqualV (fieldUnsafeGet m key) value
  else fieldUnsafeGet m key == value

/-- `isArrayEqual` in explicit state-passing form: the boolean result
together with the contents of the two caller arrays after the call.  The
source's `a.sort()` / `b.sort()` sort the receivers in place (and are
skipped entirely on a length mismatch); deeper in-place sorts performed by
recursive calls on nested arrays are not tracked (no verified statement
reads them). -/
def isArrayEqualMut (a b : List JsValue) : Bool × List JsValue × List JsValue :=
  if a.length ≠ b.length then (false, a, b)
  else (isArrayEqual a b, jsSortList a, jsSortList b)

/-! ## Association registry (`AssociationRegistry`) -/

/-- Dot-path traversal `path.split('.').reduce((acc, key) => acc?.[key], obj)`
with the path pre-split: the optional chaining `acc?.[key]` short-circuits
`null`/`undefined` to `undefined` without throwing, which is exactly
`jsPropSafe`. -/
def resolvePath (obj : JsValue) (path : List String) : JsValue :=
  path.foldl (fun acc key => jsPropSafe acc key) obj

/-- The validator closure compiled by `AssociationRegistry.register`:
resolve `sourcePath` on the source instance and `targetPath` on the
candidate target and require strict equality (embedded structurally; the
resolved foreign keys are primitives in every verified statement). -/
def compiledAssociationValidator (sourcePath targetPath : List String) :
    JsValue → JsValue → Bool :=
  fun src tgt => resolvePath src sourcePath == resolvePath tgt targetPath

/-- One `Association` tuple of the registry. -/
structure AssociationRec where
  sourceModel : String
  sourcePath : List String
  fieldName : String
  targetModel : String
  targetPath : List String

/-- `AssociationRegistry.register(association)`: append to the raw
association list and store the compiled validator under the composite key
`"{sourceModel}.{fieldName}"` — a later `register` for the same key
silently overwrites the validator, while the raw list keeps all entries. -/
def registryRegister
    (regs : List AssociationRec × List (String × (JsValue → JsValue → Bool)))
    (a : AssociationRec) :
    List AssociationRec × List (String × (JsValue → JsValue → Bool)) :=
  let key := a.sourceModel ++ "." ++ a.fieldName
  let validator := compiledAssociationValidator a.sourcePath a.targetPath
  (regs.1 ++ [a],
   if regs.2.any (fun p => p.1 = key) then
     regs.2.map (fun p => if p.1 = key then (key, validator) else p)
   else
     regs.2 ++ [(key, validator)])

/-- `AssociationRegistry.getValidator(sourceModel, fieldName)`: look up by
the composite key `"{sourceModel}.{fieldName}"`. -/
def registryGetValidator
    (validators : List (String × (JsValue → JsValue → Bool)))
    (sourceModel fieldName : String) : Option (JsValue → JsValue → Bool) :=
  (validators.find? (fun p => p.1 = sourceModel ++ "." ++ fieldName)).map
    (fun p => p.2)

/-- Modelled from the spec for comparison with `validateAssociation`: one
embedded related value produces an `ASSOCIATION_INVALID` error exactly when
it is loaded (defined `id` and more than one own key) and the registered
validator rejects it; a value whose loaded-check evaluates to `false` is
accepted without association validation. -/
def assocCheckSpec (validator : JsValue → Bool) (v : JsValue) : List ErrCode :=
  match isLoaded v with
  | .ok true => if validator v = false then [.associationInvalid] else []
  | _ => []

/-! ## Helper lemmas -/

theorem jsGet_nil (k : String) : jsGet [] k = .vUndefined := rfl

theorem jsGet_cons (p : String × JsValue) (o : JsObj) (k : String) :
    jsGet (p :: o) k = if p.1 = k then p.2 else jsGet o k := by
  by_cases h : p.1 = k <;> simp [jsGet, List.find?_cons, h]

/-- Pointwise reading of `getChangesGo`: a field already seen is absent;
otherwise the first (newest) entry for the field decides, dropped when its
value is `===`-equal to the `initialState` value. -/
theorem getChangesGo_jsGet (init : JsObj) :
    ∀ (l : List ChangeEntry) (seen : List String) (f : String),
      jsGet (getChangesGo init l seen) f =
        if f ∈ seen then .vUndefined
        else
          match l.find? (fun e => e.field = f) with
          | none => .vUndefined
          | some e =>
            if strictEqClone (jsGet init f) e.currentValue then .vUndefined
            else e.currentValue := by
  intro l
  induction l with
  | nil =>
    intro seen f
    simp [getChangesGo, jsGet_nil]
  | cons e rest ih =>
    intro seen f
    by_cases h1 : e.field ∈ seen
    · by_cases h2 : e.field = f
      · subst h2
        simp [getChangesGo, h1, ih, List.find?_cons]
      · simp [getChangesGo, h1, ih, List.find?_cons, h2]
    · by_cases h2 : e.field = f
      · subst h2
        by_cases h3 : strictEqClone (jsGet init e.field) e.currentValue
        · simp [getChangesGo, h1, h3, ih, List.find?_cons]
        · simp [getChangesGo, h1, h3, ih, jsGet_cons, List.find?_cons]
      · have h2' : ¬(f = e.field) := fun h => h2 h.symm
        by_cases h3 : strictEqClone (jsGet init e.field) e.currentValue
        · simp [getChangesGo, h1, h3, ih, List.find?_cons, h2, h2']
        · simp [getChangesGo, h1, h3, ih, jsGet_cons, List.find?_cons, h2, h2']

/-- The field names produced by `getChangesGo` are distinct and disjoint
from the already-seen names. -/
theorem getChangesGo_keys (init : JsObj) :
    ∀ (l : List ChangeEntry) (seen : List String),
      ((getChangesGo init l seen).map Prod.fst).Nodup ∧
        ∀ k ∈ (getChangesGo init l seen).map Prod.fst, k ∉ seen := by
  intro l
  induction l with
  | nil => intro seen; simp [getChangesGo]
  | cons e rest ih =>
    intro seen
    by_cases h1 : e.field ∈ seen
    · simpa [getChangesGo, h1] using ih seen
    · by_cases h2 : strictEqClone (jsGet init e.field) e.currentValue
      · obtain ⟨hnd, hdisj⟩ := ih (e.field :: seen)
        refine ⟨by simpa [getChangesGo, h1, h2] using hnd, ?_⟩
        intro k hk hks
        exact hdisj k (by simpa [getChangesGo, h1, h2] using hk) (by simp [hks])
      · obtain ⟨hnd, hdisj⟩ := ih (e.field :: seen)
        have hred : getChangesGo init (e :: rest) seen =
            (e.field, e.currentValue) :: getChangesGo init rest (e.field :: seen) := by
          simp [getChangesGo, h1, h2]
        rw [hred]
        constructor
        · simp only [List.map_cons, List.nodup_cons]
          exact ⟨fun hmem => hdisj e.field hmem (by simp), hnd⟩
        · intro k hk hks
          simp only [List.map_cons, List.mem_cons] at hk
          rcases hk with hk | hk
          · exact h1 (hk ▸ hks)
          · exact hdisj k hk (by simp [hks])

theorem jsGet_not_any (o : JsObj) (f : String)
    (h : o.any (fun p => p.1 = f) = false) : jsGet o f = .vUndefined := by
  unfold jsGet
  have h2 : ∀ p ∈ o, ¬(p.1 = f) := by
    intro p hp
    have h3 := List.any_eq_false.mp h p hp
    simpa using h3
  rw [List.find?_eq_none.mpr (fun p hp => by simpa using h2 p hp)]

theorem jsGet_append (a b : JsObj) (f : String) :
    jsGet (a ++ b) f =
      if a.any (fun p => p.1 = f) then jsGet a f else jsGet b f := by
  induction a with
  | nil => simp [jsGet]
  | cons p o ih =>
    by_cases h : p.1 = f
    · simp [jsGet_cons, h, List.any_cons]
    · rw [show ((p :: o) ++ b) = p :: (o ++ b) from rfl, jsGet_cons, if_neg h, ih,
        List.any_cons, decide_eq_false h, Bool.false_or, jsGet_cons, if_neg h]

theorem jsGet_replaceMap (o : JsObj) (k : String) (v : JsValue) (f : String)
    (h : k ≠ f) :
    jsGet (o.map (fun p => if p.1 = k then (k, v) else p)) f = jsGet o f := by
  induction o with
  | nil => simp [jsGet]
  | cons p o ih =>
    by_cases hp : p.1 = k
    · simp [hp, jsGet_cons, h, ih, Ne.symm h]
    · simp [hp, jsGet_cons, ih]

theorem jsGet_replaceMap_self (o : JsObj) (k : String) (v : JsValue)
    (h : o.any (fun p => p.1 = k) = true) :
    jsGet (o.map (fun p => if p.1 = k then (k, v) else p)) k = v := by
  induction o with
  | nil => simp at h
  | cons p o ih =>
    by_cases hp : p.1 = k
    · simp [hp, jsGet_cons]
    · simp only [List.any_cons, Bool.or_eq_true, decide_eq_true_eq] at h
      rcases h with h | h


      · exact absurd h hp
      · simp [hp, jsGet_cons, ih h]

theorem jsGet_jsSet_self (o : JsObj) (k : String) (v : JsValue) :
    jsGet (jsSet o k v) k = v := by
  unfold jsSet
  by_cases h : o.any (fun p => p.1 = k) = true
  · simp [h, jsGet_replaceMap_self o k v h]
  · rw [if_neg h, jsGet_append, if_neg h]
    simp [jsGet_cons]

theorem jsGet_jsSet_ne (o : JsObj) (k : String) (v : JsValue) (f : String)
    (h : k ≠ f) :
    jsGet (jsSet o k v) f = jsGet o f := by
  unfold jsSet
  by_cases ha : o.any (fun p => p.1 = k) = true
  · simp [ha, jsGet_replaceMap o k v f h]
  · rw [if_neg ha, jsGet_append]
    by_cases hf : o.any (fun p => p.1 = f) = true
    · simp [hf]
    · have hf2 : o.any (fun p => p.1 = f) = false := by
        revert hf
        cases o.any (fun p => decide (p.1 = f)) <;> simp
      rw [if_neg hf, jsGet_cons, if_neg (by simpa using h), jsGet_not_any o f hf2]
      rfl


theorem jsGet_jsDelete_self (o : JsObj) (k : String) :
    jsGet (jsDelete o k) k = .vUndefined := by
  induction o with
  | nil => rfl
  | cons p o ih =>
    by_cases hp : p.1 = k
    · simpa [jsDelete, hp] using ih
    · simpa [jsDelete, hp, jsGet_cons] using ih

theorem jsGet_jsDelete_ne (o : JsObj) (k : String) (f : String) (h : k ≠ f) :
    jsGet (jsDelete o k) f = jsGet o f := by
  induction o with
  | nil => rfl
  | cons p o ih =>
    by_cases hp : p.1 = k
    · rw [show jsDelete (p :: o) k = jsDelete o k by simp [jsDelete, hp]]
      rw [ih, jsGet_cons, if_neg (by rw [hp]; exact h)]
    · rw [show jsDelete (p :: o) k = p :: jsDelete o k by simp [jsDelete, hp]]
      rw [jsGet_cons, jsGet_cons, ih]

/-- C1: `getChanges()` walks the change log newest-first, keeps only the
most recent entry per field name (the produced keys are distinct), and
omits a field whose most recent logged value is strictly equal to the value
recorded for it in `initialState` — a value that round-tripped back to its
baseline produces no entry. -/
theorem getChanges_newest_first_baseline_omitted (init : JsObj)
    (log : List ChangeEntry) :
    (∀ f : String,
      jsGet (getChanges init log) f =
        match (getChangeLog log).find? (fun e => e.field = f) with
        | none => .vUndefined
        | some e =>
          if strictEqClone (jsGet init f) e.currentValue then .vUndefined
          else e.currentValue) ∧
    ((getChanges init log).map Prod.fst).Nodup := by
  constructor
  · intro f
    unfold getChanges
    rw [getChangesGo_jsGet]
    simp
  · exact (getChangesGo_keys init (getChangeLog log) []).1

/-! ## Seeding and validation fold lemmas -/

theorem valueInit_foldl_ne (data : JsObj) (hyd : Bool) (f : String) :
    ∀ (fields : List (String × FieldOpts)) (st : JsObj),
      (∀ p ∈ fields, p.1 ≠ f) →
      jsGet (fields.foldl
        (fun st p =>
          if p.2.compute then st
          else
            let v := getInitialValue (jsGet data p.1) p.2 hyd
            if v = .vUndefined then st else jsSet st p.1 v)
        st) f = jsGet st f := by
  intro fields
  induction fields with
  | nil => intro st _; rfl
  | cons p rest ih =>
    intro st hne
    have hp : p.1 ≠ f := hne p (List.mem_cons_self p rest)
    have hrest : ∀ q ∈ rest, q.1 ≠ f := fun q hq => hne q (List.mem_cons_of_mem p hq)
    rw [List.foldl_cons]
    by_cases hc : p.2.compute
    · rw [if_pos hc]
      exact ih _ hrest
    · rw [if_neg hc]
      by_cases hv : getInitialValue (jsGet data p.1) p.2 hyd = .vUndefined
      · rw [if_pos hv]
        exact ih _ hrest
      · rw [if_neg hv, ih _ hrest, jsGet_jsSet_ne _ _ _ _ hp]

theorem jsGet_valueInitialize (fields : List (String × FieldOpts)) (data : JsObj)
    (hyd : Bool) (f : String) (o : FieldOpts)
    (hmem : (f, o) ∈ fields) (hnd : (fields.map Prod.fst).Nodup) :
    jsGet (valueInitialize fields data hyd) f =
      if o.compute then .vUndefined else getInitialValue (jsGet data f) o hyd := by
  unfold valueInitialize
  suffices h : ∀ (fs : List (String × FieldOpts)) (st : JsObj),
      (f, o) ∈ fs → (fs.map Prod.fst).Nodup → jsGet st f = .vUndefined →
      jsGet (fs.foldl
        (fun st p =>
          if p.2.compute then st
          else
            let v := getInitialValue (jsGet data p.1) p.2 hyd
            if v = .vUndefined then st else jsSet st p.1 v)
        st) f =
        if o.compute then .vUndefined else getInitialValue (jsGet data f) o hyd by
    exact h fields [] hmem hnd rfl
  intro fs
  induction fs with
  | nil => intro st hm; exact absurd hm (List.not_mem_nil _)
  | cons p rest ih =>
    intro st hm hnd hst
    obtain ⟨p1, p2⟩ := p
    rw [List.map_cons, List.nodup_cons] at hnd
    rcases List.mem_cons.mp hm with heq | hm2
    · injection heq with h1 h2
      subst h1
      subst h2
      have hrest : ∀ q ∈ rest, q.1 ≠ f := by
        intro q hq hqf
        have hq2 : q.1 ∈ List.map Prod.fst rest := List.mem_map_of_mem Prod.fst hq
        rw [hqf] at hq2
        exact hnd.1 hq2
      rw [List.foldl_cons]
      by_cases hc : o.compute
      · rw [if_pos hc, valueInit_foldl_ne data hyd f rest st hrest, hst, if_pos hc]
      · rw [if_neg hc, if_neg hc]
        by_cases hv : getInitialValue (jsGet data f) o hyd = .vUndefined
        · rw [if_pos hv, valueInit_foldl_ne data hyd f rest st hrest, hst, hv]
        · rw [if_neg hv, valueInit_foldl_ne data hyd f rest _ hrest,
            jsGet_jsSet_self]
    · have hpf : p1 ≠ f := by
        intro hpf
        apply hnd.1
        rw [hpf]
        have hmm : (f, o).1 ∈ List.map Prod.fst rest :=
          List.mem_map_of_mem Prod.fst hm2
        exact hmm
      rw [List.foldl_cons]
      by_cases hc : p2.compute
      · rw [if_pos hc]
        exact ih st hm2 hnd.2 hst
      · rw [if_neg hc]
        by_cases hv : getInitialValue (jsGet data p1) p2 hyd = .vUndefined
        · rw [if_pos hv]
          exact ih st hm2 hnd.2 hst
        · rw [if_neg hv]
          exact ih _ hm2 hnd.2 (by rw [jsGet_jsSet_ne _ _ _ _ hpf, hst])

theorem validationInit_ok_mono (assoc : String → Option (JsValue → Bool))
    (state : JsObj) :
    ∀ (fields : List (String × FieldOpts)) (acc errs : List ErrCode) (e : ErrCode),
      fields.foldlM
        (fun errs p =>
          let value := jsGet state p.1
          if value = .vUndefined then Except.ok errs
          else
            match validateFieldInit p.2 (assoc p.1) value with
            | .error e => Except.error e
            | .ok es => Except.ok (errs ++ es))
        acc = Except.ok errs →
      e ∈ acc → e ∈ errs := by
  intro fields
  induction fields with
  | nil =>
    intro acc errs e hok he
    cases hok
    exact he
  | cons p rest ih =>
    intro acc errs e hok he
    simp only [List.foldlM_cons] at hok
    by_cases hv : jsGet state p.1 = .vUndefined
    · rw [if_pos hv] at hok
      exact ih acc errs e hok he
    · rw [if_neg hv] at hok
      cases hfi : validateFieldInit p.2 (assoc p.1) (jsGet state p.1) with
      | error err =>
        rw [hfi] at hok
        exact Except.noConfusion hok
      | ok es =>
        rw [hfi] at hok
        exact ih (acc ++ es) errs e hok (List.mem_append_left _ he)

theorem validationInit_ok_mem (assoc : String → Option (JsValue → Bool))
    (state : JsObj) (f : String) (o : FieldOpts) (e : ErrCode)
    (hval : jsGet state f ≠ .vUndefined)
    (hall : ∀ es, validateFieldInit o (assoc f) (jsGet state f) = .ok es → e ∈ es) :
    ∀ (fields : List (String × FieldOpts)) (acc errs : List ErrCode),
      (f, o) ∈ fields →
      fields.foldlM
        (fun errs p =>
          let value := jsGet state p.1
          if value = .vUndefined then Except.ok errs
          else
            match validateFieldInit p.2 (assoc p.1) value with
            | .error e => Except.error e
            | .ok es => Except.ok (errs ++ es))
        acc = Except.ok errs →
      e ∈ errs := by
  intro fields
  induction fields with
  | nil =>
    intro acc errs hm
    exact absurd hm (List.not_mem_nil _)
  | cons p rest ih =>
    intro acc errs hm hok
    simp only [List.foldlM_cons] at hok
    rcases List.mem_cons.mp hm with heq | hm2
    · have hp1 : p.1 = f := by rw [← heq]
      have hp2 : p.2 = o := by rw [← heq]
      rw [hp1, hp2] at hok
      rw [if_neg hval] at hok
      cases hfi : validateFieldInit o (assoc f) (jsGet state f) with
      | error err =>
        rw [hfi] at hok
        exact Except.noConfusion hok
      | ok es =>
        rw [hfi] at hok
        exact validationInit_ok_mono assoc state rest (acc ++ es) errs e hok
          (List.mem_append_right _ (hall es hfi))
    · by_cases hv : jsGet state p.1 = .vUndefined
      · rw [if_pos hv] at hok
        exact ih acc errs hm2 hok
      · rw [if_neg hv] at hok
        cases hfi : validateFieldInit p.2 (assoc p.1) (jsGet state p.1) with
        | error err =>
          rw [hfi] at hok
          exact Except.noConfusion hok
        | ok es =>
          rw [hfi] at hok
          exact ih (acc ++ es) errs hm2 hok

theorem makeModel_typeError (schema : List (String × FieldOpts))
    (assoc : String → Option (JsValue → Bool)) (data : JsObj) (err : Unit)
    (h : validationInitialize schema assoc (valueInitialize schema data false)
      = .error err) :
    makeModel schema assoc data = .error .typeError := by
  unfold makeModel
  simp only [h]

theorem makeModel_validationFailed (schema : List (String × FieldOpts))
    (assoc : String → Option (JsValue → Bool)) (data : JsObj)
    (errs : List ErrCode)
    (h : validationInitialize schema assoc (valueInitialize schema data false)
      = .ok errs)
    (hne : errs ≠ []) :
    makeModel schema assoc data = .error (.validationFailed errs) := by
  unfold makeModel
  simp only [h]
  rw [if_pos hne]

theorem makeModel_ok_state (schema : List (String × FieldOpts))
    (assoc : String → Option (JsValue → Bool)) (data : JsObj)
    (errs : List ErrCode)
    (h : validationInitialize schema assoc (valueInitialize schema data false)
      = .ok errs)
    (hnil : errs = []) :
    makeModel schema assoc data
      = .ok { state := valueInitialize schema data false
              initialState := []
              changeLog := (valueInitialize schema data false).foldl
                (fun lg p => changeLogSink lg ⟨p.1, p.2, .vUndefined⟩) []
              isFrom := false } := by
  unfold makeModel
  simp only [h]
  have hne : ¬(errs ≠ []) := by simp [hnil]
  rw [if_neg hne]

theorem fromModel_typeError (schema : List (String × FieldOpts))
    (assoc : String → Option (JsValue → Bool)) (data : JsObj) (err : Unit)
    (h : validationInitialize schema assoc (valueInitialize schema data true)
      = .error err) :
    fromModel schema assoc data = .error .typeError := by
  unfold fromModel
  simp only [h]

theorem fromModel_validationFailed (schema : List (String × FieldOpts))
    (assoc : String → Option (JsValue → Bool)) (data : JsObj)
    (errs : List ErrCode)
    (h : validationInitialize schema assoc (valueInitialize schema data true)
      = .ok errs)
    (hne : errs ≠ []) :
    fromModel schema assoc data = .error (.validationFailed errs) := by
  unfold fromModel
  simp only [h]
  rw [if_pos hne]

/-! ## Claim C2 — value seeding priority (code bug: falsy defaults skipped) -/

/-- C2: evaluation of `getInitialValue` at the failing input of the claim.
The claim (and README examples such as `number().default(0)`) require a
declared default to be used for `make` when no data value is given, but the
code tests `if (options.default)` by JS truthiness: a default of `0` leaves
the field uninitialized, and a default of `false` falls through to the
eager generator.  Truthy defaults, explicit data values and hydration
behave as claimed. -/
theorem getInitialValue_skips_falsy_default :
    getInitialValue .vUndefined { default := .vInt 0 } false = .vUndefined ∧
    getInitialValue .vUndefined
      { default := .vBool false, generator := some ⟨false, .vStr "G"⟩ } false
      = .vStr "G" ∧
    getInitialValue .vUndefined { default := .vInt 7 } false = .vInt 7 ∧
    getInitialValue (.vInt 5) { default := .vInt 7 } false = .vInt 5 ∧
    getInitialValue .vUndefined { default := .vInt 7, generator := some ⟨false, .vStr "G"⟩ }
      true = .vUndefined := by
  exact ⟨rfl, rfl, rfl, rfl, rfl⟩

/-! ## Claim C3 — null is rejected for non-nullable fields (corrected) -/

/-- C3 counterexample: `make` on a non-nullable field that also declares an
`associate` rule with a registered validator, seeded with `null`, does not
abort with the aggregated error list containing `FIELD_NOT_NULLABLE`: the
association check's `value.id` access on `null` throws a `TypeError` first
and construction crashes with it. -/
theorem nonNullable_null_associate_crash :
    makeModel [("f", { nullable := false, associate := true })]
      (fun _ => some (fun _ => true)) [("f", .vNull)]
      = .error .typeError ∧
    ∀ errs, makeModel [("f", { nullable := false, associate := true })]
      (fun _ => some (fun _ => true)) [("f", .vNull)]
      ≠ .error (.validationFailed errs) := by
  refine ⟨rfl, ?_⟩
  intro errs h
  have h2 : (Except.error InitFailure.typeError : Except InitFailure MState)
      = .error (.validationFailed errs) := h
  injection h2 with h3
  exact InitFailure.noConfusion h3

/-- C3 (amended): for a field not declared nullable, setting `null` fails
with `NotNullable` through `Field.set` (hence `Model.set`) and never
commits.  During `make`/`from`, a `null` seeded for such a field never lets
construction succeed: whenever the validation pass completes without an
uncaught `TypeError` (in particular whenever the field declares no
`associate` rule), the abort is the aggregated error list containing
`FIELD_NOT_NULLABLE`; a non-nullable `associate` field with a registered
validator instead crashes with the `TypeError` thrown by the association
check on `null`.  Either way, a non-nullable field's committed value is
never `null`. -/
theorem nonNullable_null_always_rejected :
    (∀ (o : FieldOpts) (m : MState) (f : String), o.nullable = false →
      (o.writable = true → fieldSet o m f .vNull = .error .fieldNotNullable) ∧
      (∀ m', fieldSet o m f .vNull ≠ .ok m')) ∧
    (∀ (fields : List ModelField) (m : MState) (f : String) (fd : ModelField),
      fields.find? (fun g => g.name = f) = some fd →
      fd.opts.nullable = false → fd.opts.writable = true →
      modelSet fields m [(f, .vNull)] = .error .fieldNotNullable) ∧
    (∀ (schema : List (String × FieldOpts))
       (assoc : String → Option (JsValue → Bool)) (data : JsObj)
       (f : String) (o : FieldOpts),
      (f, o) ∈ schema → (schema.map Prod.fst).Nodup →
      o.compute = false → o.nullable = false → jsGet data f = .vNull →
      (∀ m, makeModel schema assoc data ≠ .ok m) ∧
      (∀ m, fromModel schema assoc data ≠ .ok m) ∧
      (∀ errs,
        validationInitialize schema assoc (valueInitialize schema data false)
          = .ok errs →
        ErrCode.fieldNotNullable ∈ errs ∧
        makeModel schema assoc data = .error (.validationFailed errs)) ∧
      (∀ errs,
        validationInitialize schema assoc (valueInitialize schema data true)
          = .ok errs →
        ErrCode.fieldNotNullable ∈ errs ∧
        fromModel schema assoc data = .error (.validationFailed errs))) := by
  have hsetNull : ∀ (o : FieldOpts) (m : MState) (f : String),
      o.nullable = false → o.writable = true →
      fieldSet o m f .vNull = .error .fieldNotNullable := by
    intro o m f hnn hw
    have hw2 : ¬(o.writable = false) := by simp [hw]
    unfold fieldSet
    rw [if_neg hw2, if_pos ⟨rfl, hnn⟩]
  refine ⟨?_, ?_, ?_⟩
  · intro o m f hnn
    constructor
    · exact hsetNull o m f hnn
    · intro m' hok
      unfold fieldSet at hok
      by_cases hw : o.writable = false
      · rw [if_pos hw] at hok
        exact Except.noConfusion hok
      · rw [if_neg hw, if_pos ⟨rfl, hnn⟩] at hok
        exact Except.noConfusion hok
  · intro fields m f fd hfind hnn hw
    unfold modelSet
    rw [List.foldlM_cons]
    have hne : (JsValue.vNull = JsValue.vUndefined) = False := by simp
    simp only [hne, if_false, hfind]
    rw [hsetNull fd.opts m f hnn hw]
    rfl
  · intro schema assoc data f o hmem hnd hc hnn hdata
    have hvalue : ∀ hyd : Bool,
        jsGet (valueInitialize schema data hyd) f = .vNull := by
      intro hyd
      rw [jsGet_valueInitialize schema data hyd f o hmem hnd, hc]
      simp only [Bool.false_eq_true, if_false]
      rw [hdata]
      rfl
    have hall : ∀ (hyd : Bool) (es : List ErrCode),
        validateFieldInit o (assoc f) (jsGet (valueInitialize schema data hyd) f)
          = .ok es →
        ErrCode.fieldNotNullable ∈ es := by
      intro hyd es hok
      rw [hvalue hyd] at hok
      unfold validateFieldInit at hok
      have hnu : ¬(JsValue.vNull = JsValue.vUndefined) := by simp
      rw [if_neg hnu] at hok
      cases ha : (if o.associate then validateAssociation (assoc f) .vNull
          else .ok []) with
      | error err =>
        rw [ha] at hok
        exact Except.noConfusion hok
      | ok aerrs =>
        rw [ha] at hok
        injection hok with hes
        rw [← hes]
        have hmem1 : ErrCode.fieldNotNullable ∈
            (if JsValue.vNull = JsValue.vNull ∧ o.nullable = false
             then [ErrCode.fieldNotNullable] else []) := by
          rw [if_pos ⟨rfl, hnn⟩]
          exact List.mem_singleton.mpr rfl
        exact List.mem_append_left _ (List.mem_append_left _ hmem1)
    have hmemerr : ∀ (hyd : Bool) (errs : List ErrCode),
        validationInitialize schema assoc (valueInitialize schema data hyd)
          = .ok errs →
        ErrCode.fieldNotNullable ∈ errs := by
      intro hyd errs hok
      exact validationInit_ok_mem assoc (valueInitialize schema data hyd) f o
        ErrCode.fieldNotNullable (by rw [hvalue hyd]; simp) (hall hyd)
        schema [] errs hmem hok
    refine ⟨?_, ?_, ?_, ?_⟩
    · intro m hok
      cases hv : validationInitialize schema assoc
          (valueInitialize schema data false) with
      | error err =>
        rw [makeModel_typeError schema assoc data err hv] at hok
        exact Except.noConfusion hok
      | ok errs =>
        have hne : errs ≠ [] := List.ne_nil_of_mem (hmemerr false errs hv)
        rw [makeModel_validationFailed schema assoc data errs hv hne] at hok
        exact Except.noConfusion hok
    · intro m hok
      cases hv : validationInitialize schema assoc
          (valueInitialize schema data true) with
      | error err =>
        rw [fromModel_typeError schema assoc data err hv] at hok
        exact Except.noConfusion hok
      | ok errs =>
        have hne : errs ≠ [] := List.ne_nil_of_mem (hmemerr true errs hv)
        rw [fromModel_validationFailed schema assoc data errs hv hne] at hok
        exact Except.noConfusion hok
    · intro errs hv
      exact ⟨hmemerr false errs hv,
        makeModel_validationFailed schema assoc data errs hv
          (List.ne_nil_of_mem (hmemerr false errs hv))⟩
    · intro errs hv
      exact ⟨hmemerr true errs hv,
        fromModel_validationFailed schema assoc data errs hv
          (List.ne_nil_of_mem (hmemerr true errs hv))⟩

/-- C3 witness: concrete non-nullable field rejections through `Field.set`,
`Model.set` and `make` (no `associate` rule, so the validation pass
completes and aborts with the aggregated list). -/
theorem nonNullable_null_always_rejected_witness :
    fieldSet { nullable := false } ⟨[], [], [], false⟩ "f" .vNull
      = .error .fieldNotNullable ∧
    modelSet [⟨"f", false, {}⟩] ⟨[], [], [], false⟩ [("f", .vNull)]
      = .error .fieldNotNullable ∧
    (ErrCode.fieldNotNullable ∈ [ErrCode.fieldNotNullable] ∧
     makeModel [("f", ({} : FieldOpts))] (fun _ => none) [("f", .vNull)]
       = .error (.validationFailed [.fieldNotNullable])) := by
  refine ⟨?_, ?_, ?_⟩
  · exact (nonNullable_null_always_rejected.1 { nullable := false }
      ⟨[], [], [], false⟩ "f" rfl).1 rfl
  · exact nonNullable_null_always_rejected.2.1 [⟨"f", false, {}⟩]
      ⟨[], [], [], false⟩ "f" ⟨"f", false, {}⟩ rfl rfl rfl
  · exact (nonNullable_null_always_rejected.2.2 [("f", {})] (fun _ => none)
      [("f", .vNull)] "f" {} (List.mem_cons_self _ _) (by simp) rfl rfl
      rfl).2.2.1 [.fieldNotNullable] rfl

/-! ## Claim C4 — uninitialized fields: public read fails, unsafeGet does not -/

/-- C4: a field absent from the construction data, with no (truthy) default
and no eager generator, is left `undefined` in a `make`-built model; the
public accessor `Field.get` then fails with `NotInitialized` (given the
default readability), while `unsafeGet` returns `undefined` without
failing. -/
theorem uninitialized_field_get_fails_unsafeGet_undefined
    (schema : List (String × FieldOpts))
    (assoc : String → Option (JsValue → Bool)) (data : JsObj)
    (f : String) (o : FieldOpts) (m : MState)
    (hmem : (f, o) ∈ schema) (hnd : (schema.map Prod.fst).Nodup)
    (hdata : jsGet data f = .vUndefined)
    (hdef : o.default = .vUndefined)
    (hgen : Field.getEagerGenerator o = none)
    (hread : o.readable = true)
    (hmk : makeModel schema assoc data = .ok m) :
    fieldUnsafeGet m f = .vUndefined ∧
    fieldGet o m f = .error .fieldNotInitialized := by
  have hstate : m.state = valueInitialize schema data false := by
    cases hv : validationInitialize schema assoc
        (valueInitialize schema data false) with
    | error err =>
      rw [makeModel_typeError schema assoc data err hv] at hmk
      exact Except.noConfusion hmk
    | ok errs =>
      by_cases hnil : errs = []
      · rw [makeModel_ok_state schema assoc data errs hv hnil] at hmk
        injection hmk with h2
        rw [← h2]
      · rw [makeModel_validationFailed schema assoc data errs hv hnil] at hmk
        exact Except.noConfusion hmk
  have hgiv : getInitialValue .vUndefined o false = .vUndefined := by
    unfold getInitialValue
    have h1 : ¬(JsValue.vUndefined ≠ JsValue.vUndefined) := by simp
    have h2 : ¬(false = true) := by simp
    have h3 : ¬(truthy o.default = true) := by rw [hdef]; simp [truthy]
    rw [if_neg h1, if_neg h2, if_neg h3, hgen]
  have hval : jsGet m.state f = .vUndefined := by
    rw [hstate, jsGet_valueInitialize schema data false f o hmem hnd, hdata, hgiv]
    simp
  refine ⟨hval, ?_⟩
  have hread2 : ¬(o.readable = false) := by simp [hread]
  unfold fieldGet
  rw [if_neg hread2, if_pos hval]

/-- C4 witness: a one-field schema with no default and no generator. -/
theorem uninitialized_field_get_fails_witness :
    fieldUnsafeGet ⟨[], [], [], false⟩ "f" = .vUndefined ∧
    fieldGet {} ⟨[], [], [], false⟩ "f" = .error .fieldNotInitialized := by
  exact uninitialized_field_get_fails_unsafeGet_undefined
    [("f", {})] (fun _ => none) [] "f" {} ⟨[], [], [], false⟩
    (List.mem_cons_self _ _) (by simp) rfl rfl rfl rfl rfl

/-! ## Claim C5 — the ID field survives `only` and blocks `except` -/

theorem modelExcept_cons (g : ModelField) (fields : List ModelField)
    (m : MState) (keys : List String) :
    modelExcept (g :: fields) m keys =
      if keys.contains g.name = false then modelExcept fields m keys
      else if g.isId then .error .idFieldCannotBeExcluded
      else modelExcept fields (fieldUnset m g.name) keys := by
  unfold modelExcept
  rw [List.foldlM_cons]
  by_cases h1 : keys.contains g.name = false
  · rw [if_pos h1, if_pos h1]
    rfl
  · rw [if_neg h1, if_neg h1]
    by_cases h2 : g.isId
    · rw [if_pos h2, if_pos h2]
      rfl
    · rw [if_neg h2, if_neg h2]
      rfl

theorem modelExcept_error_of_id_named (keys : List String) :
    ∀ (fields : List ModelField) (m : MState) (idf : ModelField),
      idf ∈ fields → idf.isId = true → keys.contains idf.name = true →
      modelExcept fields m keys = .error .idFieldCannotBeExcluded := by
  intro fields
  induction fields with
  | nil => intro m idf hm; exact absurd hm (List.not_mem_nil _)
  | cons g rest ih =>
    intro m idf hm hid hk
    rw [modelExcept_cons]
    rcases List.mem_cons.mp hm with heq | hm2
    · subst heq
      have hk2 : ¬(keys.contains idf.name = false) := by rw [hk]; simp
      rw [if_neg hk2, if_pos hid]
    · by_cases h1 : keys.contains g.name = false
      · rw [if_pos h1]
        exact ih m idf hm2 hid hk
      · rw [if_neg h1]
        by_cases h2 : g.isId
        · rw [if_pos h2]
        · rw [if_neg h2]
          exact ih _ idf hm2 hid hk

theorem modelExcept_preserves (keys : List String) (n : String) :
    ∀ (fields : List ModelField) (m m' : MState),
      (∀ g ∈ fields, g.name ≠ n) →
      modelExcept fields m keys = .ok m' →
      jsGet m'.state n = jsGet m.state n := by
  intro fields
  induction fields with
  | nil =>
    intro m m' _ hok
    cases hok
    rfl
  | cons g rest ih =>
    intro m m' hne hok
    have hg : g.name ≠ n := hne g (List.mem_cons_self _ _)
    have hrest : ∀ q ∈ rest, q.name ≠ n := fun q hq => hne q (List.mem_cons_of_mem _ hq)
    rw [modelExcept_cons] at hok
    by_cases h1 : keys.contains g.name = false
    · rw [if_pos h1] at hok
      exact ih m m' hrest hok
    · rw [if_neg h1] at hok
      by_cases h2 : g.isId
      · rw [if_pos h2] at hok
        exact Except.noConfusion hok
      · rw [if_neg h2] at hok
        rw [ih _ m' hrest hok]
        exact jsGet_jsDelete_ne _ _ _ hg

theorem modelExcept_unsets_named (keys : List String) :
    ∀ (fields : List ModelField) (m m' : MState) (fd : ModelField),
      (fields.map ModelField.name).Nodup →
      modelExcept fields m keys = .ok m' →
      fd ∈ fields → fd.isId = false → keys.contains fd.name = true →
      jsGet m'.state fd.name = .vUndefined := by
  intro fields
  induction fields with
  | nil => intro m m' fd _ _ hm; exact absurd hm (List.not_mem_nil _)
  | cons g rest ih =>
    intro m m' fd hnd hok hm hfd hk
    rw [List.map_cons, List.nodup_cons] at hnd
    rw [modelExcept_cons] at hok
    rcases List.mem_cons.mp hm with heq | hm2
    · subst heq
      have hk2 : ¬(keys.contains fd.name = false) := by rw [hk]; simp
      have hfd2 : ¬(fd.isId = true) := by simp [hfd]
      rw [if_neg hk2, if_neg hfd2] at hok
      have hrest : ∀ q ∈ rest, q.name ≠ fd.name := by
        intro q hq hqn
        exact hnd.1 (hqn ▸ List.mem_map_of_mem ModelField.name hq)
      rw [modelExcept_preserves keys fd.name rest _ m' hrest hok]
      exact jsGet_jsDelete_self _ _
    · by_cases h1 : keys.contains g.name = false
      · rw [if_pos h1] at hok
        exact ih m m' fd hnd.2 hok hm2 hfd hk
      · rw [if_neg h1] at hok
        by_cases h2 : g.isId
        · rw [if_pos h2] at hok
          exact Except.noConfusion hok
        · rw [if_neg h2] at hok
          exact ih _ m' fd hnd.2 hok hm2 hfd hk

theorem modelOnly_preserves (keys : List String) (n : String) :
    ∀ (fields : List ModelField) (m : MState),
      (∀ g ∈ fields, g.isId = false → g.name ≠ n) →
      jsGet (modelOnly fields m keys).state n = jsGet m.state n := by
  intro fields
  induction fields with
  | nil => intro m _; rfl
  | cons g rest ih =>
    intro m h
    have hrest : ∀ q ∈ rest, q.isId = false → q.name ≠ n :=
      fun q hq => h q (List.mem_cons_of_mem _ hq)
    unfold modelOnly
    rw [List.foldl_cons]
    by_cases h1 : keys.contains g.name = true
    · rw [if_pos h1]
      exact ih m hrest
    · rw [if_neg h1]
      by_cases h2 : g.isId
      · rw [if_pos h2]
        exact ih m hrest
      · rw [if_neg h2]
        have hg : g.name ≠ n := h g (List.mem_cons_self _ _) (by simpa using h2)
        exact (ih _ hrest).trans (jsGet_jsDelete_ne _ _ _ hg)

/-- C5: `except` fails with `IdFieldCannotBeExcluded` whenever the key list
names the `IdField` (and, on success, unsets every named non-ID field),
while `only` never unsets the `IdField`, so its stored value survives
`only` for any key list. -/
theorem id_field_protected (fields : List ModelField) (m : MState)
    (keys : List String) (idf : ModelField)
    (hmem : idf ∈ fields) (hid : idf.isId = true)
    (hnd : (fields.map ModelField.name).Nodup) :
    (idf.name ∈ keys →
      modelExcept fields m keys = .error .idFieldCannotBeExcluded) ∧
    (∀ m', modelExcept fields m keys = .ok m' →
      ∀ fd ∈ fields, fd.isId = false → fd.name ∈ keys →
        jsGet m'.state fd.name = .vUndefined) ∧
    jsGet (modelOnly fields m keys).state idf.name = jsGet m.state idf.name := by
  refine ⟨?_, ?_, ?_⟩
  · intro hk
    exact modelExcept_error_of_id_named keys fields m idf hmem hid
      (List.elem_iff.mpr hk)
  · intro m' hok fd hfd hfdid hfdk
    exact modelExcept_unsets_named keys fields m m' fd hnd hok hfd hfdid
      (List.elem_iff.mpr hfdk)
  · refine modelOnly_preserves keys idf.name fields m ?_
    intro g hg hgid hgn
    have : g = idf := by
      have h1 := List.inj_on_of_nodup_map hnd
      exact h1 hg hmem hgn
    rw [this] at hgid
    rw [hgid] at hid
    exact Bool.noConfusion hid

/-- C5 witness: a concrete two-field model — excluding `id` fails, and
`only(["name"])` keeps the id value. -/
theorem id_field_protected_witness :
    modelExcept [⟨"id", true, {}⟩, ⟨"name", false, {}⟩]
      ⟨[("id", .vStr "1"), ("name", .vStr "n")], [], [], false⟩ ["id"]
      = .error .idFieldCannotBeExcluded ∧
    jsGet (modelOnly [⟨"id", true, {}⟩, ⟨"name", false, {}⟩]
      ⟨[("id", .vStr "1"), ("name", .vStr "n")], [], [], false⟩ ["name"]).state "id"
      = jsGet (MState.mk [("id", .vStr "1"), ("name", .vStr "n")] [] [] false).state "id" := by
  constructor
  · exact (id_field_protected [⟨"id", true, {}⟩, ⟨"name", false, {}⟩]
      ⟨[("id", .vStr "1"), ("name", .vStr "n")], [], [], false⟩ ["id"]
      ⟨"id", true, {}⟩ (List.mem_cons_self _ _) rfl (by simp)).1 (by simp)
  · exact (id_field_protected [⟨"id", true, {}⟩, ⟨"name", false, {}⟩]
      ⟨[("id", .vStr "1"), ("name", .vStr "n")], [], [], false⟩ ["name"]
      ⟨"id", true, {}⟩ (List.mem_cons_self _ _) rfl (by simp)).2.2

/-! ## Claim C6 — unsetting erases the field's change-log entries -/

/-- C6: after a successful `set({f: v})` followed by `unset([f])`, no entry
for `f` remains in the change log (erasure, not a negating entry), and
`getChanges()` does not contain `f`. -/
theorem unset_erases_changelog (o : FieldOpts) (m : MState) (f : String)
    (v : JsValue) (m' : MState) (hset : fieldSet o m f v = .ok m') :
    (∀ e ∈ (fieldUnset m' f).changeLog, e.field ≠ f) ∧
    jsGet (getChanges (fieldUnset m' f).initialState (fieldUnset m' f).changeLog) f
      = .vUndefined := by
  have hlog : (fieldUnset m' f).changeLog
      = m'.changeLog.filter (fun e => e.field ≠ f) := by
    unfold fieldUnset changeLogSink
    rw [if_pos rfl]
  have hall : ∀ e ∈ (fieldUnset m' f).changeLog, e.field ≠ f := by
    intro e he
    rw [hlog] at he
    simpa using (List.mem_filter.mp he).2
  refine ⟨hall, ?_⟩
  unfold getChanges
  rw [getChangesGo_jsGet]
  have hfind : ((fieldUnset m' f).changeLog).reverse.find?
      (fun e => e.field = f) = none := by
    apply List.find?_eq_none.mpr
    intro e he
    simpa using hall e (List.mem_reverse.mp he)
  unfold getChangeLog
  rw [hfind]
  simp

/-- C6 witness: set then unset a concrete field. -/
theorem unset_erases_changelog_witness :
    (∀ e ∈ (fieldUnset
        ⟨[("a", .vStr "x")], [], [⟨"a", .vStr "x", .vUndefined⟩], false⟩ "a").changeLog,
      e.field ≠ "a") ∧
    jsGet (getChanges
        (fieldUnset ⟨[("a", .vStr "x")], [], [⟨"a", .vStr "x", .vUndefined⟩], false⟩ "a").initialState
        (fieldUnset ⟨[("a", .vStr "x")], [], [⟨"a", .vStr "x", .vUndefined⟩], false⟩ "a").changeLog)
      "a" = .vUndefined := by
  exact unset_erases_changelog {} ⟨[], [], [], false⟩ "a" (.vStr "x")
    ⟨[("a", .vStr "x")], [], [⟨"a", .vStr "x", .vUndefined⟩], false⟩ rfl

/-! ## Claim C7 — generate error conditions (corrected: truthiness check) -/

/-- C7 counterexample: a field whose stored value is the empty string — a
value that exists (is not `undefined`) — is not reported as
`AlreadyGenerated`: `generate` runs the generator and overwrites it,
because the guard is `if (value)` (JS truthiness), not an
existence check. -/
theorem generate_existing_falsy_not_detected :
    fieldUnsafeGet ⟨[("id", .vStr "")], [], [], false⟩ "id" = .vStr "" ∧
    fieldGenerate { generator := some ⟨false, .vStr "X"⟩ }
        ⟨[("id", .vStr "")], [], [], false⟩ "id"
      = .ok ⟨[("id", .vStr "X")], [], [⟨"id", .vStr "X", .vStr ""⟩], false⟩ := by
  exact ⟨rfl, rfl⟩

/-- C7 (amended): `generate` fails with `NoGenerator` when none is
configured; fails with `AlreadyGenerated` when the stored value is *truthy*
(an existing falsy value — `''`, `0`, `false`, `null` — is not detected and
is overwritten); fails with `CannotGenerateExisting` on a `from`-hydrated
model; otherwise commits the generated value via `set`. -/
theorem generate_contract_truthy (o : FieldOpts) (m : MState) (f : String) :
    (o.generator = none → fieldGenerate o m f = .error .fieldNoGenerator) ∧
    (∀ g, o.generator = some g →
      (truthy (jsGet m.state f) = true →
        fieldGenerate o m f = .error .fieldAlreadyGenerated) ∧
      (truthy (jsGet m.state f) = false → m.isFrom = true →
        fieldGenerate o m f = .error .fieldCannotGenerateExisting) ∧
      (truthy (jsGet m.state f) = false → m.isFrom = false →
        fieldGenerate o m f = fieldSet o m f g.value)) := by
  have hsome : ∀ g, o.generator = some g →
      fieldGenerate o m f =
        if truthy (jsGet m.state f) = true then .error .fieldAlreadyGenerated
        else if m.isFrom = true then .error .fieldCannotGenerateExisting
        else fieldSet o m f g.value := by
    intro g hg
    unfold fieldGenerate
    rw [hg]
  constructor
  · intro hg
    unfold fieldGenerate
    rw [hg]
  · intro g hg
    refine ⟨?_, ?_, ?_⟩
    · intro ht
      rw [hsome g hg, if_pos ht]
    · intro ht hf
      have ht2 : ¬(truthy (jsGet m.state f) = true) := by rw [ht]; simp
      rw [hsome g hg, if_neg ht2, if_pos hf]
    · intro ht hf
      have ht2 : ¬(truthy (jsGet m.state f) = true) := by rw [ht]; simp
      have hf2 : ¬(m.isFrom = true) := by rw [hf]; simp
      rw [hsome g hg, if_neg ht2, if_neg hf2]

/-- C7 witness: a truthy existing value yields `AlreadyGenerated`; a
`from`-hydrated model yields `CannotGenerateExisting`; a fresh `make` model
commits the generated value. -/
theorem generate_contract_truthy_witness :
    fieldGenerate { generator := some ⟨false, .vStr "X"⟩ }
        ⟨[("id", .vStr "abc")], [], [], false⟩ "id"
      = .error .fieldAlreadyGenerated ∧
    fieldGenerate { generator := some ⟨false, .vStr "X"⟩ } ⟨[], [], [], true⟩ "id"
      = .error .fieldCannotGenerateExisting ∧
    fieldGenerate { generator := some ⟨false, .vStr "X"⟩ } ⟨[], [], [], false⟩ "id"
      = fieldSet { generator := some ⟨false, .vStr "X"⟩ } ⟨[], [], [], false⟩ "id"
        (.vStr "X") := by
  refine ⟨?_, ?_, ?_⟩
  · exact ((generate_contract_truthy { generator := some ⟨false, .vStr "X"⟩ }
      ⟨[("id", .vStr "abc")], [], [], false⟩ "id").2 ⟨false, .vStr "X"⟩ rfl).1 rfl
  · exact ((generate_contract_truthy { generator := some ⟨false, .vStr "X"⟩ }
      ⟨[], [], [], true⟩ "id").2 ⟨false, .vStr "X"⟩ rfl).2.1 rfl rfl
  · exact ((generate_contract_truthy { generator := some ⟨false, .vStr "X"⟩ }
      ⟨[], [], [], false⟩ "id").2 ⟨false, .vStr "X"⟩ rfl).2.2 rfl rfl

/-! ## Claim C8 — isValid uses truthiness, not `=== true` (corrected) -/

/-- C8 counterexample: a validator that returns a failure-message string is
counted as passing by `isValid` (the string is truthy), even though its
result is not exactly `true` — `validate()` on the same state reports a
`FIELD_VALIDATOR_FAILED` error. -/
theorem isValid_accepts_message_string :
    fieldIsValid { validators := [⟨false, fun _ => .vStr "too short"⟩] }
        ⟨[("name", .vStr "x")], [], [], false⟩ "name" = true ∧
    (fun (_ : JsValue) => JsValue.vStr "too short") (.vStr "x") ≠ .vBool true ∧
    fieldValidate { validators := [⟨false, fun _ => .vStr "too short"⟩] }
        ⟨[("name", .vStr "x")], [], [], false⟩ "name"
      = [.fieldValidatorFailed] := by
  exact ⟨rfl, by decide, rfl⟩

/-- C8 (amended): `isValid(model, key)` returns `true` iff every configured
validator, applied to the raw stored value, returns a JS-truthy result
(exactly `true` or any non-empty string); a validator returning a message
string or any other truthy value is counted as passing. -/
theorem isValid_iff_all_truthy (o : FieldOpts) (m : MState) (f : String) :
    fieldIsValid o m f = true ↔
      ∀ v ∈ o.validators, truthy (v.fn (jsGet m.state f)) = true := by
  simp [fieldIsValid, List.all_eq_true]

/-- C8 witness: the identity validator on a non-empty string passes. -/
theorem isValid_iff_all_truthy_witness :
    fieldIsValid { validators := [⟨false, fun v => v⟩] }
      ⟨[("a", .vStr "x")], [], [], false⟩ "a" = true := by
  refine (isValid_iff_all_truthy { validators := [⟨false, fun v => v⟩] }
    ⟨[("a", .vStr "x")], [], [], false⟩ "a").mpr ?_
  intro v hv
  rw [List.mem_singleton.mp hv]
  rfl

/-! ## Claim C9 — `is` compares arrays after sorting both operands -/

/-- C9: `Field.is` compares two arrays with `isArrayEqual`, which sorts
both operands (in place — the state-passing form returns the reordered
caller arrays) and compares position by position, so permutations such as
`[1,2]` and `[2,1]` are reported equal and a caller's array `[3,1,2]` comes
back reordered to `[1,2,3]`; two `typeof 'object'` values are compared
key-for-key recursively via `isObjectEqual`. -/
theorem is_sorts_mutates_and_recurses :
    (∀ (m : MState) (key : String) (xs ys : List JsValue),
      fieldUnsafeGet m key = .vArr xs →
      fieldIs m key (.vArr ys) = (isArrayEqualMut xs ys).1) ∧
    (isArrayEqualMut [.vInt 1, .vInt 2] [.vInt 2, .vInt 1]).1 = true ∧
    isArrayEqualMut [.vInt 3, .vInt 1, .vInt 2] [.vInt 1, .vInt 2, .vInt 3]
      = (true, [.vInt 1, .vInt 2, .vInt 3], [.vInt 1, .vInt 2, .vInt 3]) ∧
    (∀ (m : MState) (key : String) (fsa fsb : JsObj),
      fieldUnsafeGet m key = .vObj fsa →
      fieldIs m key (.vObj fsb) = isObjectEqualV (.vObj fsa) (.vObj fsb)) ∧
    isObjectEqualV (.vObj [("a", .vObj [("b", .vInt 1)])])
      (.vObj [("a", .vObj [("b", .vInt 1)])]) = true ∧
    isObjectEqualV (.vObj [("a", .vObj [("b", .vInt 1)])])
      (.vObj [("a", .vObj [("b", .vInt 2)])]) = false := by
  have harr12 : isArrayEqual [JsValue.vInt 1, JsValue.vInt 2]
      [JsValue.vInt 2, JsValue.vInt 1] = true := by
    rw [isArrayEqual_eq]
    decide
  have harr312 : isArrayEqual [JsValue.vInt 3, JsValue.vInt 1, JsValue.vInt 2]
      [JsValue.vInt 1, JsValue.vInt 2, JsValue.vInt 3] = true := by
    rw [isArrayEqual_eq]
    decide
  have hin1 : isObjectEqualV (.vObj [("b", .vInt 1)]) (.vObj [("b", .vInt 1)])
      = true := by
    rw [isObjectEqualV_eq]
    decide
  have hin2 : isObjectEqualV (.vObj [("b", .vInt 1)]) (.vObj [("b", .vInt 2)])
      = false := by
    rw [isObjectEqualV_eq]
    decide
  refine ⟨?_, ?_, ?_, ?_, ?_, ?_⟩
  · intro m key xs ys h
    unfold fieldIs
    rw [h]
    have h1 : ¬(jsTypeof (JsValue.vArr xs) ≠ jsTypeof (JsValue.vArr ys)) := by
      simp [jsTypeof]
    have h2 : (isJsArray (JsValue.vArr xs) && isJsArray (JsValue.vArr ys)) = true := by
      simp [isJsArray]
    rw [if_neg h1, if_pos h2]
    have h3 : isArrayEqualV (.vArr xs) (.vArr ys) = isArrayEqual xs ys := by
      simp [isArrayEqualV]
    rw [h3]
    unfold isArrayEqualMut
    by_cases hl : xs.length ≠ ys.length
    · rw [if_pos hl]
      show isArrayEqual xs ys = false
      rw [isArrayEqual_eq, if_pos hl]
    · rw [if_neg hl]
  · unfold isArrayEqualMut
    have hc : ¬([JsValue.vInt 1, JsValue.vInt 2].length
        ≠ [JsValue.vInt 2, JsValue.vInt 1].length) := by decide
    rw [if_neg hc]
    exact harr12
  · unfold isArrayEqualMut
    have hc : ¬([JsValue.vInt 3, JsValue.vInt 1, JsValue.vInt 2].length
        ≠ [JsValue.vInt 1, JsValue.vInt 2, JsValue.vInt 3].length) := by decide
    rw [if_neg hc, harr312]
    decide
  · intro m key fsa fsb h
    unfold fieldIs
    rw [h]
    have h1 : ¬(jsTypeof (JsValue.vObj fsa) ≠ jsTypeof (JsValue.vObj fsb)) := by
      simp [jsTypeof]
    have h2 : (isJsArray (JsValue.vObj fsa) && isJsArray (JsValue.vObj fsb)) = false := by
      simp [isJsArray]
    have h3 : (jsTypeof (JsValue.vObj fsa) == "object"
        && jsTypeof (JsValue.vObj fsb) == "object") = true := by
      simp [jsTypeof]
    rw [if_neg h1, h2, h3]
    simp
  · rw [isObjectEqualV_eq]
    simp [jsOwnKeys, jsPropSafe, jsGet, jsTypeof, isJsArray, hin1]
  · rw [isObjectEqualV_eq]
    simp [jsOwnKeys, jsPropSafe, jsGet, jsTypeof, isJsArray, hin2]

/-- C9 witness: a model storing `[1,2]` reports `is` equal to `[2,1]`. -/
theorem is_sorts_mutates_witness :
    fieldIs ⟨[("g", .vArr [.vInt 1, .vInt 2])], [], [], false⟩ "g"
      (.vArr [.vInt 2, .vInt 1]) = true := by
  have h := is_sorts_mutates_and_recurses
  exact (h.1 ⟨[("g", .vArr [.vInt 1, .vInt 2])], [], [], false⟩ "g"
    [.vInt 1, .vInt 2] [.vInt 2, .vInt 1] rfl).trans h.2.1

/-! ## Claim C10 — association validation only touches loaded values
(corrected: a null/undefined embedded value crashes the check) -/

theorem isLoaded_ok_of_ne (v : JsValue) (hn : v ≠ .vNull) (hu : v ≠ .vUndefined) :
    isLoaded v = .ok (decide (jsPropSafe v "id" ≠ .vUndefined)
      && decide ((jsOwnKeys v).length > 1)) := by
  cases v with
  | vUndefined => exact absurd rfl hu
  | vNull => exact absurd rfl hn
  | vBool b => rfl
  | vInt n => rfl
  | vStr s => rfl
  | vArr xs => rfl
  | vObj fs => rfl

theorem validateAssociationStep_ok (validator : JsValue → Bool)
    (errs : List ErrCode) (v : JsValue) (hn : v ≠ .vNull) (hu : v ≠ .vUndefined) :
    validateAssociationStep validator errs v
      = .ok (errs ++ assocCheckSpec validator v) := by
  unfold validateAssociationStep assocCheckSpec
  rw [isLoaded_ok_of_ne v hn hu]
  cases hb : (decide (jsPropSafe v "id" ≠ .vUndefined)
      && decide ((jsOwnKeys v).length > 1)) with
  | false => simp
  | true =>
    by_cases hv : validator v = false
    · simp [hv]
    · simp [hv]

theorem validateAssociation_fold_ok (validator : JsValue → Bool) :
    ∀ (xs : List JsValue) (acc : List ErrCode),
      (∀ x ∈ xs, x ≠ .vNull ∧ x ≠ .vUndefined) →
      xs.foldlM (validateAssociationStep validator) acc
        = .ok (acc ++ xs.flatMap (assocCheckSpec validator)) := by
  intro xs
  induction xs with
  | nil =>
    intro acc h
    exact congrArg Except.ok (List.append_nil acc).symm
  | cons v rest ih =>
    intro acc h
    have hv := h v (List.mem_cons_self _ _)
    rw [List.foldlM_cons, validateAssociationStep_ok validator acc v hv.1 hv.2,
      List.flatMap_cons, ← List.append_assoc]
    exact ih (acc ++ assocCheckSpec validator v)
      (fun x hx => h x (List.mem_cons_of_mem _ hx))

theorem validateAssociation_fold_crash (validator : JsValue → Bool) :
    ∀ (xs : List JsValue) (acc : List ErrCode),
      .vNull ∈ xs ∨ .vUndefined ∈ xs →
      xs.foldlM (validateAssociationStep validator) acc = .error () := by
  intro xs
  induction xs with
  | nil =>
    intro acc h
    rcases h with h | h <;> exact absurd h (List.not_mem_nil _)
  | cons v rest ih =>
    intro acc h
    by_cases hn : v = .vNull
    · subst hn
      rfl
    · by_cases hu : v = .vUndefined
      · subst hu
        rfl
      · rw [List.foldlM_cons, validateAssociationStep_ok validator acc v hn hu]
        have hm : .vNull ∈ rest ∨ .vUndefined ∈ rest := by
          rcases h with h | h
          · rcases List.mem_cons.mp h with h2 | h2
            · exact absurd h2.symm hn
            · exact Or.inl h2
          · rcases List.mem_cons.mp h with h2 | h2
            · exact absurd h2.symm hu
            · exact Or.inr h2
        exact ih (acc ++ assocCheckSpec validator v) hm

/-- C10 (amended): during construction-time validation a field with an
`associate` rule has its embedded value(s) checked against the registered
association validator only when a value is loaded (`id` defined and more
than one own key); a value that is not loaded — but is not `null` or
`undefined` — is accepted without association validation, element-wise over
arrays; a `null` or `undefined` embedded value (or array element) instead
makes the `value.id` access of the loaded-check throw a `TypeError`, which
aborts validation; and the association outcome flows into `validateField`
exactly when the field declares an `associate` rule. -/
theorem association_checked_iff_loaded :
    (∀ (validator : JsValue → Bool) (xs : List JsValue),
      (∀ x ∈ xs, x ≠ .vNull ∧ x ≠ .vUndefined) →
      validateAssociation (some validator) (.vArr xs)
        = .ok (xs.flatMap (assocCheckSpec validator))) ∧
    (∀ (validator : JsValue → Bool) (xs : List JsValue),
      .vNull ∈ xs ∨ .vUndefined ∈ xs →
      validateAssociation (some validator) (.vArr xs) = .error ()) ∧
    (∀ (validator : JsValue → Bool) (v : JsValue),
      isJsArray v = false → v ≠ .vNull → v ≠ .vUndefined →
      validateAssociation (some validator) v = .ok (assocCheckSpec validator v)) ∧
    (∀ validator : JsValue → Bool,
      validateAssociation (some validator) .vNull = .error () ∧
      validateAssociation (some validator) .vUndefined = .error ()) ∧
    (∀ (validator : JsValue → Bool) (v : JsValue),
      isLoaded v = .ok false → assocCheckSpec validator v = []) ∧
    (∀ fieldValue : JsValue,
      validateAssociation none fieldValue = .ok [.associationValidatorNotFound]) ∧
    (∀ (o : FieldOpts) (vopt : Option (JsValue → Bool)) (value : JsValue),
      o.associate = true → value ≠ .vUndefined →
      (validateAssociation vopt value = .error () →
        validateFieldInit o vopt value = .error ()) ∧
      (∀ aerrs, validateAssociation vopt value = .ok aerrs →
        ∀ e ∈ aerrs, ∀ es, validateFieldInit o vopt value = .ok es → e ∈ es)) ∧
    (∀ (o : FieldOpts) (vopt : Option (JsValue → Bool)) (value : JsValue),
      o.associate = false →
      ∀ es, validateFieldInit o vopt value = .ok es →
        ErrCode.associationInvalid ∉ es ∧
        ErrCode.associationValidatorNotFound ∉ es) := by
  refine ⟨?_, ?_, ?_, ?_, ?_, ?_, ?_, ?_⟩
  · intro validator xs hx
    have h := validateAssociation_fold_ok validator xs [] hx
    rw [List.nil_append] at h
    exact h
  · intro validator xs hx
    exact validateAssociation_fold_crash validator xs [] hx
  · intro validator v harr hn hu
    have h := validateAssociation_fold_ok validator [v] []
      (fun x hx => by rw [List.mem_singleton.mp hx]; exact ⟨hn, hu⟩)
    rw [List.nil_append] at h
    have h2 : [v].flatMap (assocCheckSpec validator) = assocCheckSpec validator v := by
      simp
    rw [h2] at h
    cases v with
    | vArr xs => simp [isJsArray] at harr
    | vUndefined => exact absurd rfl hu
    | vNull => exact absurd rfl hn
    | vBool b => exact h
    | vInt n => exact h
    | vStr s => exact h
    | vObj fs => exact h
  · intro validator
    exact ⟨rfl, rfl⟩
  · intro validator v hl
    unfold assocCheckSpec
    rw [hl]
  · intro fieldValue
    rfl
  · intro o vopt value ha hv
    constructor
    · intro hcrash
      unfold validateFieldInit
      rw [if_neg hv, if_pos ha, hcrash]
    · intro aerrs hok e he es hes
      unfold validateFieldInit at hes
      rw [if_neg hv, if_pos ha, hok] at hes
      injection hes with hes2
      rw [← hes2]
      exact List.mem_append_left _ (List.mem_append_right _ he)
  · intro o vopt value ha es hes
    by_cases hv : value = .vUndefined
    · unfold validateFieldInit at hes
      rw [if_pos hv] at hes
      injection hes with h2
      rw [← h2]
      exact ⟨List.not_mem_nil _, List.not_mem_nil _⟩
    · unfold validateFieldInit at hes
      have ha2 : ¬(o.associate = true) := by simp [ha]
      rw [if_neg hv, if_neg ha2] at hes
      injection hes with h2
      rw [← h2]
      constructor
      · intro hmem
        rcases List.mem_append.mp hmem with h1 | h2a
        · rcases List.mem_append.mp h1 with h3 | h4
          · by_cases hn : (value = JsValue.vNull ∧ o.nullable = false)
            · rw [if_pos hn] at h3
              rcases List.mem_singleton.mp h3 with h5
              exact ErrCode.noConfusion h5
            · rw [if_neg hn] at h3
              exact absurd h3 (List.not_mem_nil _)
          · exact absurd h4 (List.not_mem_nil _)
        · obtain ⟨a, _, hfa⟩ := List.mem_filterMap.mp h2a
          by_cases hfv : a.fn value ≠ .vBool true
          · rw [if_pos hfv] at hfa
            injection hfa with h6
            exact ErrCode.noConfusion h6
          · rw [if_neg hfv] at hfa
            exact Option.noConfusion hfa
      · intro hmem
        rcases List.mem_append.mp hmem with h1 | h2a
        · rcases List.mem_append.mp h1 with h3 | h4
          · by_cases hn : (value = JsValue.vNull ∧ o.nullable = false)
            · rw [if_pos hn] at h3
              rcases List.mem_singleton.mp h3 with h5
              exact ErrCode.noConfusion h5
            · rw [if_neg hn] at h3
              exact absurd h3 (List.not_mem_nil _)
          · exact absurd h4 (List.not_mem_nil _)
        · obtain ⟨a, _, hfa⟩ := List.mem_filterMap.mp h2a
          by_cases hfv : a.fn value ≠ .vBool true
          · rw [if_pos hfv] at hfa
            injection hfa with h6
            exact ErrCode.noConfusion h6
          · rw [if_neg hfv] at hfa
            exact Option.noConfusion hfa

/-- C10 counterexample: a `null` association value is not "accepted without
association validation" — the loaded-check's `value.id` access throws, and
the `make` call crashes with a `TypeError` instead of constructing the
model. -/
theorem association_null_crashes :
    validateAssociation (some (fun _ => true)) .vNull = .error () ∧
    makeModel [("author", { nullable := true, associate := true })]
      (fun _ => some (fun _ => true)) [("author", .vNull)]
      = .error .typeError := by
  exact ⟨rfl, rfl⟩

/-- C10 witness: a loaded embedded value failing the validator is flagged;
an id-only embedding is accepted without validation; an array of non-null
values is checked element-wise; a `null` array element crashes the
check. -/
theorem association_checked_iff_loaded_witness :
    validateAssociation (some (fun v => jsPropSafe v "id" == .vStr "1"))
      (.vObj [("id", .vStr "2"), ("x", .vInt 1)]) = .ok [.associationInvalid] ∧
    validateAssociation (some (fun v => jsPropSafe v "id" == .vStr "1"))
      (.vObj [("id", .vStr "2")]) = .ok [] ∧
    validateAssociation (some (fun v => jsPropSafe v "id" == .vStr "1"))
      (.vArr [.vObj [("id", .vStr "2")], .vObj [("id", .vStr "1"), ("x", .vInt 1)]])
      = .ok [] ∧
    validateAssociation (some (fun v => jsPropSafe v "id" == .vStr "1"))
      (.vArr [.vNull]) = .error () := by
  refine ⟨?_, ?_, ?_, ?_⟩
  · exact (association_checked_iff_loaded.2.2.1
      (fun v => jsPropSafe v "id" == .vStr "1")
      (.vObj [("id", .vStr "2"), ("x", .vInt 1)]) rfl (by decide) (by decide)).trans
      (congrArg Except.ok (by decide))
  · exact (association_checked_iff_loaded.2.2.1
      (fun v => jsPropSafe v "id" == .vStr "1")
      (.vObj [("id", .vStr "2")]) rfl (by decide) (by decide)).trans
      (congrArg Except.ok (by decide))
  · exact (association_checked_iff_loaded.1
      (fun v => jsPropSafe v "id" == .vStr "1")
      [.vObj [("id", .vStr "2")], .vObj [("id", .vStr "1"), ("x", .vInt 1)]]
      (by simp)).trans (congrArg Except.ok (by decide))
  · exact association_checked_iff_loaded.2.1
      (fun v => jsPropSafe v "id" == .vStr "1") [.vNull]
      (Or.inl (List.mem_singleton.mpr rfl))

end Verve
